import Mathlib

/-!
Verification of the tool-call orchestration engine of the FeelyAI repository.

The definitions below are a shallow embedding of the JavaScript source:
* `Json`, `parseJson`, `Json.render`, `Json.stringify2` model the host
  primitives `JSON.parse` / `JSON.stringify` (numbers are modelled as
  integers; none of the verified code paths involves fractional numbers).
* The orchestration functions (`generateExample`, `validateToolCall`,
  `planCalls`, `dedupCalls`, `needsApproval`, `executeTools`, ...) are
  translated from `useChat` (src/unnamed/part_001).
* The call extractor (`extractTools` and its strategies) is translated from
  the llm worker (src/unnamed/part_002).
External collaborators (the ajv schema validator, the MCP client, the eval
worker, `RegExp`) are modelled as oracles carried in an environment record.
-/

namespace Feely

/-- A JSON value (and, more generally, a structured-clonable JS value) as it
flows between the extractor, validator and executor.  Numbers are modelled
as integers; the verified code paths never manipulate fractional numbers. -/
inductive Json where
  | null : Json
  | bool (b : Bool) : Json
  | num (n : Int) : Json
  | str (s : String) : Json
  | arr (elems : List Json) : Json
  | obj (fields : List (String × Json)) : Json

/-- JS truthiness of a `Json` value (`if (v)`). -/
def Json.truthy : Json → Bool
  | .null => false
  | .bool b => b
  | .num n => n != 0
  | .str s => s != ""
  | .arr _ => true
  | .obj _ => true

/-- JS property access `v.k`: `some` when defined, `none` models `undefined`
(field access on a non-object also yields `undefined`). -/
def Json.getField : Json → String → Option Json
  | .obj fs, k => fs.lookup k
  | _, _ => none

/-- Truthiness of a possibly-`undefined` JS value. -/
def optTruthy : Option Json → Bool
  | some v => v.truthy
  | none => false

def lbrace : Char := Char.ofNat 123
def rbrace : Char := Char.ofNat 125

/-- String-literal escaping used by `JSON.stringify`. -/
def escapeChar (c : Char) : List Char :=
  if c = '"' then ['\\', '"']
  else if c = '\\' then ['\\', '\\']
  else if c = '\n' then ['\\', 'n']
  else if c = '\t' then ['\\', 't']
  else if c = '\r' then ['\\', 'r']
  else [c]

def escapeStr (s : String) : List Char := s.data.flatMap escapeChar

/-- Comma-join pieces of rendered output. -/
def joinComma (pieces : List (List Char)) : List Char :=
  match pieces with
  | [] => []
  | p :: ps => p ++ (ps.flatMap (fun q => ',' :: q))

mutual
/-- Compact rendering, i.e. `JSON.stringify(v)`. -/
def Json.renderChars : Json → List Char
  | .null => "null".data
  | .bool true => "true".data
  | .bool false => "false".data
  | .num n => (toString n).data
  | .str s => '"' :: escapeStr s ++ ['"']
  | .arr es => '[' :: renderCharsList es ++ [']']
  | .obj fs => lbrace :: renderCharsFields fs ++ [rbrace]

def renderCharsList : List Json → List Char
  | [] => []
  | [v] => v.renderChars
  | v :: vs => v.renderChars ++ ',' :: renderCharsList vs

def renderCharsFields : List (String × Json) → List Char
  | [] => []
  | [(k, v)] => '"' :: escapeStr k ++ ['"', ':'] ++ v.renderChars
  | (k, v) :: fs => '"' :: escapeStr k ++ ['"', ':'] ++ v.renderChars ++ ',' :: renderCharsFields fs
end

def Json.render (v : Json) : String := String.mk v.renderChars

def indentChars (n : Nat) : List Char := List.replicate n ' '

mutual
/-- Pretty rendering with 2-space indentation, i.e. `JSON.stringify(v, null, 2)`.
`ind` is the indentation of the line on which the value's closing bracket sits. -/
def Json.pretty : Nat → Json → List Char
  | _, .null => "null".data
  | _, .bool true => "true".data
  | _, .bool false => "false".data
  | _, .num n => (toString n).data
  | _, .str s => '"' :: escapeStr s ++ ['"']
  | ind, .arr es =>
    match es with
    | [] => "[]".data
    | _ => '[' :: '\n' :: prettyList ind es ++ '\n' :: indentChars ind ++ [']']
  | ind, .obj fs =>
    match fs with
    | [] => [lbrace, rbrace]
    | _ => lbrace :: '\n' :: prettyFields ind fs ++ '\n' :: indentChars ind ++ [rbrace]

def prettyList : Nat → List Json → List Char
  | _, [] => []
  | ind, [v] => indentChars (ind + 2) ++ Json.pretty (ind + 2) v
  | ind, v :: vs => indentChars (ind + 2) ++ Json.pretty (ind + 2) v ++ ',' :: '\n' :: prettyList ind vs

def prettyFields : Nat → List (String × Json) → List Char
  | _, [] => []
  | ind, [(k, v)] => indentChars (ind + 2) ++ '"' :: escapeStr k ++ ['"', ':', ' '] ++ Json.pretty (ind + 2) v
  | ind, (k, v) :: fs =>
    indentChars (ind + 2) ++ '"' :: escapeStr k ++ ['"', ':', ' '] ++ Json.pretty (ind + 2) v
      ++ ',' :: '\n' :: prettyFields ind fs
end

/-- `JSON.stringify(v, null, 2)`. -/
def Json.stringify2 (v : Json) : String := String.mk (v.pretty 0)

/-! ### A model of `JSON.parse`

A fuel-indexed recursive-descent parser.  It accepts the canonical texts
produced by `Json.render` plus whitespace; `\u` escapes and fractional or
exponent number forms are not modelled (no verified code path uses them). -/

def isWsChar (c : Char) : Bool := c = ' ' || c = '\n' || c = '\t' || c = '\r'

def skipWs : List Char → List Char
  | [] => []
  | c :: cs => if isWsChar c then skipWs cs else c :: cs

def unescapeChar (c : Char) : Option Char :=
  if c = '"' then some '"'
  else if c = '\\' then some '\\'
  else if c = '/' then some '/'
  else if c = 'n' then some '\n'
  else if c = 't' then some '\t'
  else if c = 'r' then some '\r'
  else none

def parseStrAux : List Char → List Char → Except String (String × List Char)
  | _, [] => .error "Unterminated string in JSON"
  | acc, c :: cs =>
    if c = '"' then .ok (String.mk acc.reverse, cs)
    else if c = '\\' then
      match cs with
      | [] => .error "Unterminated string in JSON"
      | e :: cs2 =>
        match unescapeChar e with
        | some c2 => parseStrAux (c2 :: acc) cs2
        | none => .error "Bad escaped character in JSON"
    else parseStrAux (c :: acc) cs

def digitsToNat (acc : Nat) : List Char → Nat
  | [] => acc
  | c :: cs => digitsToNat (acc * 10 + (c.toNat - '0'.toNat)) cs

def parseNum (cs : List Char) : Except String (Json × List Char) :=
  let (neg, cs1) := match cs with
    | '-' :: rest => (true, rest)
    | rest => (false, rest)
  let digits := cs1.takeWhile Char.isDigit
  let rest := cs1.dropWhile Char.isDigit
  if digits.isEmpty then .error "Unexpected token in JSON"
  else
    match rest with
    | '.' :: _ => .error "Fractional numbers not modelled"
    | 'e' :: _ => .error "Exponent numbers not modelled"
    | 'E' :: _ => .error "Exponent numbers not modelled"
    | _ =>
      let n : Int := Int.ofNat (digitsToNat 0 digits)
      .ok (.num (if neg then -n else n), rest)

def expectLit (lit : List Char) (v : Json) (cs : List Char) : Except String (Json × List Char) :=
  if lit.isPrefixOf cs then .ok (v, cs.drop lit.length)
  else .error "Unexpected token in JSON"

mutual
def parseVal : Nat → List Char → Except String (Json × List Char)
  | 0, _ => .error "JSON too deeply nested"
  | fuel + 1, cs =>
    match skipWs cs with
    | [] => .error "Unexpected end of JSON input"
    | c :: rest =>
      if c = 'n' then expectLit "null".data .null (c :: rest)
      else if c = 't' then expectLit "true".data (.bool true) (c :: rest)
      else if c = 'f' then expectLit "false".data (.bool false) (c :: rest)
      else if c = '"' then
        match parseStrAux [] rest with
        | .ok (s, cs2) => .ok (.str s, cs2)
        | .error m => .error m
      else if c = '-' || c.isDigit then parseNum (c :: rest)
      else if c = '[' then parseArrRest fuel rest
      else if c = lbrace then parseObjRest fuel rest
      else .error ("Unexpected token " ++ String.mk [c] ++ " in JSON")

/-- After an opening bracket: parse the elements of an array. -/
def parseArrRest : Nat → List Char → Except String (Json × List Char)
  | 0, _ => .error "JSON too deeply nested"
  | fuel + 1, cs =>
    match skipWs cs with
    | ']' :: rest => .ok (.arr [], rest)
    | cs2 =>
      match parseVal fuel cs2 with
      | .error m => .error m
      | .ok (v, cs3) => parseArrElems fuel [v] cs3

def parseArrElems : Nat → List Json → List Char → Except String (Json × List Char)
  | 0, _, _ => .error "JSON too deeply nested"
  | fuel + 1, acc, cs =>
    match skipWs cs with
    | ']' :: rest => .ok (.arr acc.reverse, rest)
    | ',' :: rest =>
      match parseVal fuel rest with
      | .error m => .error m
      | .ok (v, cs3) => parseArrElems fuel (v :: acc) cs3
    | _ => .error "Expected comma or closing bracket in JSON array"

/-- After an opening brace: parse the fields of an object. -/
def parseObjRest : Nat → List Char → Except String (Json × List Char)
  | 0, _ => .error "JSON too deeply nested"
  | fuel + 1, cs =>
    match skipWs cs with
    | c :: rest =>
      if c = rbrace then .ok (.obj [], rest)
      else if c = '"' then
        match parseStrAux [] rest with
        | .error m => .error m
        | .ok (k, cs2) =>
          match skipWs cs2 with
          | ':' :: cs3 =>
            match parseVal fuel cs3 with
            | .error m => .error m
            | .ok (v, cs4) => parseObjFields fuel [(k, v)] cs4
          | _ => .error "Expected colon in JSON object"
      else .error "Expected string key in JSON object"
    | [] => .error "Unexpected end of JSON input"

def parseObjFields : Nat → List (String × Json) → List Char → Except String (Json × List Char)
  | 0, _, _ => .error "JSON too deeply nested"
  | fuel + 1, acc, cs =>
    match skipWs cs with
    | c :: rest =>
      if c = rbrace then .ok (.obj acc.reverse, rest)
      else if c = ',' then
        match skipWs rest with
        | '"' :: cs2 =>
          match parseStrAux [] cs2 with
          | .error m => .error m
          | .ok (k, cs3) =>
            match skipWs cs3 with
            | ':' :: cs4 =>
              match parseVal fuel cs4 with
              | .error m => .error m
              | .ok (v, cs5) => parseObjFields fuel ((k, v) :: acc) cs5
            | _ => .error "Expected colon in JSON object"
        | _ => .error "Expected string key in JSON object"
      else .error "Expected comma or closing brace in JSON object"
    | [] => .error "Unexpected end of JSON input"
end

/-- Model of `JSON.parse` on a character list. -/
def parseJsonChars (cs : List Char) : Except String Json :=
  match parseVal (cs.length + 1) cs with
  | .error m => .error m
  | .ok (v, rest) =>
    if (skipWs rest).isEmpty then .ok v
    else .error "Unexpected non-whitespace character after JSON"

/-- Model of `JSON.parse` on a string. -/
def parseJson (s : String) : Except String Json := parseJsonChars s.data

/-! ### Orchestrator data model (useChat, src/unnamed/part_001) -/

/-- A tool definition as stored in `fullTools` (`buildSystemPrompt`):
`t.function.name`, `t.function.description`, `t.function.parameters`.
`none` models an absent (`undefined`) field. -/
structure ToolDef where
  name : String
  description : Option String
  parameters : Option Json

/-- A tool call as carried on an assistant message:
`call.id`, `call.function.name`, `call.function.arguments` (raw JSON text). -/
structure ToolCall where
  id : String
  name : String
  arguments : String
deriving Repr, DecidableEq

/-- A Tool message as pushed by `pushMessage({role:"tool", ...})`.  A JS
message without an `is_error` field is modelled with `is_error := false`
(the field is only ever read for truthiness). -/
structure ToolMsg where
  tool_call_id : String
  name : String
  content : String
  is_error : Bool
deriving Repr, DecidableEq

/-- The result of `validateToolCall`: `{valid:true}` or
`{valid:false, error, schema?}`. -/
inductive VOutcome where
  | valid : VOutcome
  | invalid (error : String) (schema : Option Json) : VOutcome

def VOutcome.isValid : VOutcome → Bool
  | .valid => true
  | .invalid _ _ => false

/-! Size lemmas used for the termination of `generateExample` (which, like
the source, recurses into sub-schemas obtained by property lookup). -/

theorem sizeOf_snd_lt_of_mem {fs : List (String × Json)} {p : String × Json} (h : p ∈ fs) :
    sizeOf p.2 < sizeOf (Json.obj fs) := by
  induction fs with
  | nil => cases h
  | cons a t ih =>
    simp only [Json.obj.sizeOf_spec, List.cons.sizeOf_spec] at *
    rcases List.mem_cons.mp h with h1 | h2
    · subst h1
      obtain ⟨x, y⟩ := p
      simp only [Prod.mk.sizeOf_spec]
      omega
    · have := ih h2
      omega

theorem sizeOf_lookup_lt {fs : List (String × Json)} {k : String} {v : Json}
    (h : fs.lookup k = some v) : sizeOf v < sizeOf (Json.obj fs) := by
  induction fs with
  | nil => simp [List.lookup] at h
  | cons a t ih =>
    simp only [Json.obj.sizeOf_spec, List.cons.sizeOf_spec] at *
    rw [List.lookup] at h
    cases hk : k == a.1 with
    | true =>
      simp only [hk] at h
      rw [Option.some.injEq] at h
      subst h
      obtain ⟨x, y⟩ := a
      simp only [Prod.mk.sizeOf_spec]
      omega
    | false =>
      simp only [hk] at h
      have := ih h
      omega

theorem sizeOf_getField_lt {s : Json} {k : String} {v : Json}
    (h : s.getField k = some v) : sizeOf v < sizeOf s := by
  cases s <;> simp [Json.getField] at h
  case obj fs => exact sizeOf_lookup_lt h

/-! ### `generateExample` (part_001 lines 738-776) -/

/-- JS `a || b` on possibly-`undefined` values: the first truthy operand,
else the last operand. -/
def jsOr (a b : Option Json) : Option Json := if optTruthy a then a else b

/-- The `enum` short-circuit `schema.enum && schema.enum.length > 0 ? schema.enum[0]`:
truthy value with a positive `length`, indexed at 0.  Arrays yield their head;
the JS quirk of indexing a string yields its first character; values without a
numeric `length` (and an object carrying its own `length` field, a JS corner
not modelled) yield nothing. -/
def enumFirst : Option Json → Option Json
  | some (.arr (x :: _)) => some x
  | some (.str s) =>
    match s.data with
    | c :: _ => some (.str (String.mk [c]))
    | [] => none
  | _ => none

/-- `schema.example` / `schema.default` / `schema.const` / `schema.enum`
short-circuits, in source order, each guarded by JS truthiness. -/
def pickShortcut (schema : Json) : Option Json :=
  if optTruthy (schema.getField "example") then schema.getField "example"
  else if optTruthy (schema.getField "default") then schema.getField "default"
  else if optTruthy (schema.getField "const") then schema.getField "const"
  else enumFirst (schema.getField "enum")

/-- `Array.isArray(schema.type) ? schema.type[0] : schema.type`. -/
def resolvedType (schema : Json) : Option Json :=
  match schema.getField "type" with
  | some (.arr es) => es.head?
  | some v => some v
  | none => none

/-- `requiredFields.includes(key)`.  `requiredFields` is `schema.required || []`;
on an array JS `includes` compares with `===`, on a string it is a substring
test.  (A non-array non-string truthy `required` would throw in JS; that path
is never reached by the verified claims and is modelled as `false`.) -/
def reqIncludes (req : Json) (k : String) : Bool :=
  match req with
  | .arr l => l.any (fun v => match v with | .str s => s = k | _ => false)
  | .str s => decide (k.data <:+: s.data)
  | _ => false

/-- The schema-example synthesizer `generateExample` (part_001 738-776). -/
def generateExample (schema : Json) : Json :=
  if !schema.truthy then .obj []
  else
    match pickShortcut schema with
    | some v => v
    | none =>
      match resolvedType schema with
      | some (.str tname) =>
        if tname = "object" then
          let required := match schema.getField "required" with
            | some v => if v.truthy then v else .arr []
            | none => .arr []
          match hp : schema.getField "properties" with
          | some (.obj props) =>
            .obj (props.attach.filterMap (fun pv =>
              if reqIncludes required pv.1.1 then some (pv.1.1, generateExample pv.1.2)
              else none))
          | _ => .obj []
        else if tname = "array" then
          match hi : schema.getField "items" with
          | some items => if items.truthy then .arr [generateExample items] else .arr []
          | none => .arr []
        else if tname = "string" then .str "example_string"
        else if tname = "number" ∨ tname = "integer" then .num 123
        else if tname = "boolean" then .bool true
        else if tname = "null" then .null
        else .obj []
      | _ => .obj []
termination_by sizeOf schema
decreasing_by
  · have h1 := sizeOf_getField_lt hp
    have h2 := sizeOf_snd_lt_of_mem pv.2
    omega
  · exact sizeOf_getField_lt hi

/-! ### `validateToolCall` (part_001 lines 779-808)

The ajv engine is an external dependency; it is modelled as an oracle
`ajv : schema → args → Option String` returning `some errorsText` exactly
when the arguments do not conform. -/

def validateToolCall (ajv : Json → Json → Option String) (activeTools : List ToolDef)
    (call : ToolCall) : VOutcome :=
  if call.name = "getToolSchema" then .valid
  else
    match activeTools.find? (fun t => t.name == call.name) with
    | none => .invalid ("Tool '" ++ call.name ++ "' not found.") none
    | some toolDef =>
      match parseJson call.arguments with
      | .error m => .invalid ("Invalid JSON arguments: " ++ m) toolDef.parameters
      | .ok args =>
        match toolDef.parameters with
        | some p =>
          if p.truthy then
            match ajv p args with
            | some errText => .invalid errText (some p)
            | none => .valid
          else .valid
        | none => .valid

/-! ### Sequencing, deduplication and permissions (handleWorkerResponse,
part_001 lines 817-929) -/

/-- Index of the first invalid validation result
(`validationResults.findIndex(r => !r.result.valid)`). -/
def firstInvalid (rs : List (ToolCall × VOutcome)) : Option Nat :=
  rs.findIdx? (fun r => !r.2.isValid)

/-- Lines 833-847: calls before the first invalid one are "to process", the
first invalid one becomes the single error call, everything after it is
dropped; with no invalid call every call is processed. -/
def planCalls (rs : List (ToolCall × VOutcome)) :
    List ToolCall × Option (ToolCall × VOutcome) :=
  match firstInvalid rs with
  | some i => ((rs.take i).map Prod.fst, rs[i]?)
  | none => (rs.map Prod.fst, none)

/-- The deduplication key `` `${call.function.name}::${call.function.arguments}` ``. -/
def dedupKey (c : ToolCall) : String := c.name ++ "::" ++ c.arguments

def dedupCallsAux (seen : List String) : List ToolCall → List ToolCall
  | [] => []
  | c :: rest =>
    if seen.contains (dedupKey c) then dedupCallsAux seen rest
    else c :: dedupCallsAux (dedupKey c :: seen) rest

/-- Lines 849-862: keep the first occurrence of each (name, raw-argument)
pair, in first-seen order. -/
def dedupCalls (calls : List ToolCall) : List ToolCall := dedupCallsAux [] calls

/-- Lines 864-871: the calls recorded on the persisted assistant message —
the deduplicated executable calls followed by the error call, if any. -/
def visibleCalls (rs : List (ToolCall × VOutcome)) : List ToolCall :=
  let (toProcess, errorCall) := planCalls rs
  dedupCalls toProcess ++ (match errorCall with | some ec => [ec.1] | none => [])

/-- `const alwaysAllowed = ['getToolSchema', 'listTools']` (line 881). -/
def alwaysAllowedNames : List String := ["getToolSchema", "listTools"]

/-- Lines 883-888: the subset of executable calls that needs user approval. -/
def needsApproval (allowAll : Bool) (sessionAllowed : List String)
    (calls : List ToolCall) : List ToolCall :=
  calls.filter (fun c =>
    if alwaysAllowedNames.contains c.name then false
    else if allowAll then false
    else if sessionAllowed.contains c.name then false
    else true)

/-! ### The execution environment

`executeTools` talks to external collaborators: the MCP client, the ajv
validator, the sandboxed eval worker and the unsafe `new Function` path.
They are modelled as oracles in an environment record. -/

/-- Outcome of `evalSafe(code)`: the worker replied `{success:true, result}`,
replied `{success:false, error}`, or the promise was rejected (the 1000 ms
watchdog timeout, or a worker error event). -/
inductive EvalRes where
  | ok (result : Json) : EvalRes
  | fail (error : String) : EvalRes
  | rejected (msg : String) : EvalRes

structure ExecEnv where
  /-- `buildSystemPrompt().tools`: the three built-ins followed by the tools
  of every enabled, connected server. -/
  activeTools : List ToolDef
  /-- Names exposed by some enabled, connected MCP server (the
  `mcpServers.find(...)` test at lines 1192-1196). -/
  serverToolNames : List String
  /-- `server.client.callTool(name, args)`: result text, or a thrown
  exception message. -/
  mcpCall : String → Json → Except String String
  /-- The ajv validator: `some errorsText` iff the arguments do not conform. -/
  ajv : Json → Json → Option String
  useSafeEval : Bool
  evalSafe : String → EvalRes
  /-- `new Function(code)()`: a value, or a thrown exception message. -/
  evalUnsafe : String → Except String Json

/-- JS template-literal / `String()` display of a possibly-`undefined` value,
used in `` `Tool '${toolName}' not found.` ``.  (Array display joins elements;
only the string case is exercised by the verified claims.) -/
def jsDisplay : Option Json → String
  | none => "undefined"
  | some .null => "null"
  | some (.bool true) => "true"
  | some (.bool false) => "false"
  | some (.num n) => toString n
  | some (.str s) => s
  | some (.arr _) => "[array]"
  | some (.obj _) => "[object Object]"

/-- `args.tool_name || args.name || args.tool` (line 1021). -/
def toolNameArg (args : Json) : Option Json :=
  jsOr (args.getField "tool_name") (jsOr (args.getField "name") (args.getField "tool"))

/-- `JSON.stringify(tool.function.parameters, null, 2)`; stringifying an
absent schema gives `undefined` (never exercised: the built-ins all carry
parameters). -/
def stringifyParams : Option Json → String
  | some p => p.stringify2
  | none => "undefined"

/-- The `getToolSchema` block of `executeTools` (lines 1018-1042).  It pushes
exactly one message and never halts the loop by itself — but note that the
block is not followed by `continue` in the source. -/
def gtsMsg (env : ExecEnv) (call : ToolCall) : ToolMsg :=
  match parseJson call.arguments with
  | .error m => ⟨call.id, call.name, "Error: " ++ m, false⟩
  | .ok args =>
    let tn := toolNameArg args
    let found : Option ToolDef := match tn with
      | some (.str s) => env.activeTools.find? (fun t => t.name == s)
      | _ => none
    match found with
    | some tool => ⟨call.id, call.name, stringifyParams tool.parameters, false⟩
    | none => ⟨call.id, call.name, "Error: Tool '" ++ jsDisplay tn ++ "' not found.", false⟩

/-! ### The `listTools` block (lines 1043-1129) -/

/-- JS `\w`: ASCII letters, digits and underscore. -/
def isWordChar (c : Char) : Bool := c.isAlphanum || c = '_'

/-- Prepend a word character to the first piece of a split. -/
def consHead (c : Char) : List String → List String
  | t :: ts => String.mk (c :: t.data) :: ts
  | [] => [String.mk [c]]

/-- `cs.split(/\W+/)` on a character list, keeping the empty boundary pieces
JS produces: maximal word-character runs become the pieces, a leading or
trailing delimiter run contributes an empty piece, and adjacent delimiters
are merged (the `+`). -/
def splitNW : List Char → List String
  | [] => [""]
  | c :: cs =>
    if isWordChar c then consHead c (splitNW cs)
    else
      match cs with
      | c2 :: _ => if isWordChar c2 then "" :: splitNW cs else splitNW cs
      | [] => ["", ""]

/-- `s.split(/\W+/)`. -/
def jsSplitNonWord (s : String) : List String := splitNW s.data

def lowerStr (s : String) : String := String.mk (s.data.map Char.toLower)

/-- JS `hay.includes(needle)`. -/
def strIncludes (hay needle : String) : Bool := decide (needle.data <:+: hay.data)

/-- The BM25-like score of one tool (lines 1072-1093), doubled: JS float
arithmetic on these values (sums of 10, 2·tf and 0.5) is exact, so the
doubled score (20, 4·tf and 1) is an order-isomorphic integer model. -/
def toolScore2 (query : String) (terms : List String) (t : ToolDef) : Nat :=
  let nameTokens := jsSplitNonWord (lowerStr t.name)
  let descTokens := jsSplitNonWord (lowerStr (t.description.getD ""))
  let docTokens := nameTokens ++ descTokens
  let base : Nat := if strIncludes (lowerStr t.name) (lowerStr query) then 20 else 0
  terms.foldl (fun score term =>
    let tf := (docTokens.filter (fun dt => dt == term)).length
    let score := if tf > 0 then score + tf * 4 else score
    let score := if docTokens.any (fun dt => strIncludes dt term) then score + 1 else score
    score) base

/-- Stable insertion used to model the JS stable `Array.prototype.sort` with
comparator `(a, b) => b.score - a.score`: an element is placed before the
first strictly-smaller score, after any earlier element with an equal
score. -/
def sortInsertDesc (x : Nat × ToolDef) : List (Nat × ToolDef) → List (Nat × ToolDef)
  | [] => [x]
  | y :: ys => if x.1 ≥ y.1 then x :: y :: ys else y :: sortInsertDesc x ys

/-- Stable descending-by-score sort (ties retain original order). -/
def sortByScoreDesc : List (Nat × ToolDef) → List (Nat × ToolDef)
  | [] => []
  | x :: xs => sortInsertDesc x (sortByScoreDesc xs)

/-- `.filter(r => r.score > 0).sort((a, b) => b.score - a.score).map(r => r.tool)`:
drop zero scores, stable-sort descending. -/
def rankTools (scored : List (Nat × ToolDef)) : List ToolDef :=
  (sortByScoreDesc (scored.filter (fun r => r.1 > 0))).map Prod.snd

/-- `args = JSON.parse(call.function.arguments || '{}')` guarded by a
swallow-all catch that leaves `args = {}`. -/
def parsedListArgs (call : ToolCall) : Json :=
  let txt := if call.arguments = "" then "\x7b\x7d" else call.arguments
  match parseJson txt with
  | .ok v => v
  | .error _ => .obj []

/-- The filtering part of the `listTools` block (lines 1051-1100): the tools
to report, or a thrown error.  `regexCompile` models `new RegExp(query, 'i')`:
a case-insensitive test function, or a syntax error message. -/
def listToolsResults (env : ExecEnv) (regexCompile : String → Except String (String → Bool))
    (args : Json) : Except String (List ToolDef) :=
  let query := args.getField "query"
  let useRegex := args.getField "use_regex"
  if optTruthy query then
    if optTruthy useRegex then
      match regexCompile (jsDisplay query) with
      | .error m => .error ("Invalid Regex: " ++ m)
      | .ok test =>
        .ok (env.activeTools.filter (fun t =>
          test t.name || test (t.description.getD "")))
    else
      match query with
      | some (.str q) =>
        let terms := (jsSplitNonWord (lowerStr q)).filter (fun t => t.length > 0)
        if terms.length > 0 then
          .ok (rankTools (env.activeTools.map (fun t => (toolScore2 q terms t, t))))
        else .ok env.activeTools
      | _ => .error "query.toLowerCase is not a function"
  else .ok env.activeTools

/-- One reported tool: `{name, description}`; `JSON.stringify` omits a field
whose value is `undefined`. -/
def toolEntryJson (t : ToolDef) : Json :=
  .obj ([("name", .str t.name)] ++
    (match t.description with | some d => [("description", .str d)] | none => []))

/-- The response text of a successful `listTools` call (lines 1102-1111). -/
def listToolsContent (results : List ToolDef) : String :=
  "AVAILABLE TOOLS (" ++ toString results.length ++ " found):\n\n" ++
    (Json.arr (results.map toolEntryJson)).stringify2 ++
    "\n\nThese are the available tools. Only use them if the user's request requires it. " ++
    "To learn how to use a tool, call getToolSchema with the tool name."

/-- The `listTools` block (lines 1043-1129); it always ends in `continue`. -/
def listToolsStep (env : ExecEnv) (regexCompile : String → Except String (String → Bool))
    (call : ToolCall) : ToolMsg :=
  match listToolsResults env regexCompile (parsedListArgs call) with
  | .ok results => ⟨call.id, call.name, listToolsContent results, false⟩
  | .error m => ⟨call.id, call.name, "Error: " ++ m, true⟩

/-! ### The `evalCode` block (lines 1133-1189) -/

/-- `args.code` as handed to the eval path (a non-string value would be
coerced by the worker; only the string case is exercised). -/
def codeOf (args : Json) : String :=
  match args.getField "code" with
  | some (.str s) => s
  | some v => v.render
  | none => "undefined"

/-- The `result` local of the `evalCode` block: the eval value on success,
or the normalized `"Eval Error: <reason>"` string. -/
def evalResult (env : ExecEnv) (code : String) : Json :=
  if env.useSafeEval then
    match env.evalSafe code with
    | .ok v => v
    | .fail e => .str ("Eval Error: " ++ e)
    | .rejected m => .str ("Eval Error: " ++ m)
  else
    match env.evalUnsafe code with
    | .ok v => v
    | .error m => .str ("Eval Error: " ++ m)

/-- JS `s.startsWith(p)`, modelled on the character lists. -/
def jsStartsWith (s p : String) : Bool := p.data.isPrefixOf s.data

/-- `typeof result === 'string' && result.startsWith("Eval Error:")`. -/
def jsIsEvalError : Json → Bool
  | .str s => jsStartsWith s "Eval Error:"
  | _ => false

/-- The `evalCode` block: its messages and whether it `break`s the batch. -/
def evalCodeStep (env : ExecEnv) (call : ToolCall) : List ToolMsg × Bool :=
  match parseJson call.arguments with
  | .error m => ([⟨call.id, call.name, "Error: " ++ m, true⟩], true)
  | .ok args =>
    let result := evalResult env (codeOf args)
    let isError := jsIsEvalError result
    let content := match result with | .str s => s | v => v.stringify2
    ([⟨call.id, call.name, content, isError⟩], isError)

/-! ### The MCP-provider tail of the loop (lines 1191-1266) -/

/-- The corrective content for a re-validation failure in `executeTools`
(line 1225). -/
def mcpValidationContent (call : ToolCall) (params : Json) (validationError : String) : String :=
  "Error: Invalid arguments: " ++ validationError ++ ". \n\nExpected Schema:\n" ++
    params.stringify2 ++ "\n\nExpected Request Example Payload:\n" ++
    (Json.obj [("name", .str call.name), ("arguments", generateExample params)]).stringify2 ++
    "\n\nPlease correct your input payload based on the schema and try again."

/-- The provider-dispatch tail: reached by any call that is not `listTools`
and not `evalCode` — including a `getToolSchema` call, since its block does
not end in `continue`. -/
def mcpStep (env : ExecEnv) (call : ToolCall) : List ToolMsg × Bool :=
  let toolDef := env.activeTools.find? (fun t => t.name == call.name)
  let onServer := env.serverToolNames.contains call.name
  match toolDef, onServer with
  | some td, true =>
    (match parseJson call.arguments with
    | .error m => ([⟨call.id, call.name, "Error: " ++ m, true⟩], true)
    | .ok args =>
      let validationError := match td.parameters with
        | some p => if p.truthy then env.ajv p args else none
        | none => none
      match validationError with
      | some ve =>
        ([⟨call.id, call.name, mcpValidationContent call (td.parameters.getD .null) ve, true⟩], true)
      | none =>
        match env.mcpCall call.name args with
        | .ok result => ([⟨call.id, call.name, result, false⟩], false)
        | .error m => ([⟨call.id, call.name, "Error: " ++ m, true⟩], true))
  | _, _ => ([⟨call.id, call.name, "Error: Tool not found on any connected server.", true⟩], true)

/-- One iteration of the `for (const call of calls)` loop of `executeTools`
(lines 1017-1266): the messages pushed for this call, and whether the loop
`break`s.  The `getToolSchema` block lacks a `continue`, so its message is
followed by whatever the provider tail produces for the same call. -/
def execStep (env : ExecEnv) (regexCompile : String → Except String (String → Bool))
    (call : ToolCall) : List ToolMsg × Bool :=
  let pre := if call.name = "getToolSchema" then [gtsMsg env call] else []
  if call.name = "listTools" then ([listToolsStep env regexCompile call], false)
  else if call.name = "evalCode" then evalCodeStep env call
  else (pre ++ (mcpStep env call).1, (mcpStep env call).2)

/-- `executeTools(calls)`: the Tool messages pushed for a batch, in order,
stopping after the first halting call. -/
def executeTools (env : ExecEnv) (regexCompile : String → Except String (String → Bool)) :
    List ToolCall → List ToolMsg
  | [] => []
  | c :: rest =>
    if (execStep env regexCompile c).2 then (execStep env regexCompile c).1
    else (execStep env regexCompile c).1 ++ executeTools env regexCompile rest

/-- Whether executing a batch halts before its end (some call `break`s). -/
def execHalts (env : ExecEnv) (regexCompile : String → Except String (String → Bool)) :
    List ToolCall → Bool
  | [] => false
  | c :: rest => (execStep env regexCompile c).2 || execHalts env regexCompile rest

/-! ### The corrective error message and the per-turn outcome
(handleWorkerResponse, lines 880-929) -/

/-- The corrective Tool message pushed for the deferred error call in
`runExecution` (lines 895-917). -/
def errorCallMsg (ec : ToolCall × VOutcome) : ToolMsg :=
  match ec.2 with
  | .invalid err schema =>
    let base := "Error: " ++ err
    let content :=
      if optTruthy schema then
        let sch := schema.getD .null
        base ++ "\n\nExpected Schema:\n" ++ sch.stringify2 ++ "\n\nExpected Example:\n" ++
          (Json.obj [("name", .str ec.1.name), ("arguments", generateExample sch)]).stringify2 ++
          "\n\nYou MUST generate a NEW tool call with the name '" ++ ec.1.name ++
          "' and the corrected arguments based on the JSON schema above."
      else
        base ++ "\n\nThe tool '" ++ ec.1.name ++
          "' does not exist. Use '\x7b\"name\": \"listTools\", \"arguments\": \x7b\x7d\x7d' to see available tools."
    ⟨ec.1.id, ec.1.name, content, false⟩
  | .valid => ⟨ec.1.id, ec.1.name, "", false⟩

/-- `runExecution` (lines 891-920): execute the processed calls, then report
the deferred error call, if any. -/
def runExecutionMsgs (env : ExecEnv) (regexCompile : String → Except String (String → Bool))
    (toProcess : List ToolCall) (errorCall : Option (ToolCall × VOutcome)) : List ToolMsg :=
  (if toProcess.length > 0 then executeTools env regexCompile toProcess else []) ++
    (match errorCall with | some ec => [errorCallMsg ec] | none => [])

/-- `pendingToolCalls.value`: the single suspended approval record. -/
structure PendingApproval where
  calls : List ToolCall
  errorCall : Option (ToolCall × VOutcome)

/-- The outcome of one validated turn: either the batch ran (producing Tool
messages), or the pipeline suspended on a pending approval. -/
inductive TurnOutcome where
  | executed (msgs : List ToolMsg) : TurnOutcome
  | suspended (pending : PendingApproval) : TurnOutcome

/-- Lines 817-929 after validation: plan, dedup, then either run or suspend
on the permission gate.  `allowAll` is `localStorage 'mcp_allow_all'`,
`sessionAllowed` the in-memory session set. -/
def handleValidatedCalls (env : ExecEnv) (regexCompile : String → Except String (String → Bool))
    (allowAll : Bool) (sessionAllowed : List String)
    (rs : List (ToolCall × VOutcome)) : TurnOutcome :=
  if (needsApproval allowAll sessionAllowed (dedupCalls (planCalls rs).1)).isEmpty then
    .executed (runExecutionMsgs env regexCompile (dedupCalls (planCalls rs).1) (planCalls rs).2)
  else .suspended ⟨dedupCalls (planCalls rs).1, (planCalls rs).2⟩

/-! ### The permission state machine (C8) -/

/-- The durable flag `mcp_allow_all` (localStorage, survives restarts) and
the in-memory `sessionAllowed` set (cleared on restart). -/
structure PermState where
  allowAll : Bool
  sessionAllowed : List String

/-- Events affecting permissions: the three approval modes of
`approveToolCalls(mode)` (lines 936-949), a declined batch, and a process
restart (which clears the session set but keeps localStorage). -/
inductive PermEvent where
  | approveOnce : PermEvent
  | approveSession (callNames : List String) : PermEvent
  | approveAlways : PermEvent
  | cancel : PermEvent
  | restart : PermEvent

def permStep (s : PermState) : PermEvent → PermState
  | .approveOnce => s
  | .approveSession ns => { s with sessionAllowed := s.sessionAllowed ++ ns }
  | .approveAlways => { s with allowAll := true }
  | .cancel => s
  | .restart => { allowAll := s.allowAll, sessionAllowed := [] }

def permRun (s : PermState) : List PermEvent → PermState
  | [] => s
  | e :: es => permRun (permStep s e) es

/-! ### The call extractor (`extractTools`, src/unnamed/part_002 lines 8-113)

The extractor works on the raw generated text, modelled as a `List Char`.
The correlation ids `"call_" + Math.random().toString(36).slice(2)` come from
an external RNG; they are modelled by an id source `gen : Nat → String`. -/

/-- `formatTools`: the `function.name` slot.  A non-string truthy `name`
would be stored as-is by JS; it is modelled by its string display (never
exercised: the verified texts carry string names). -/
def callNameOf (tc : Json) : String :=
  match tc.getField "name" with
  | some (.str s) => s
  | v => jsDisplay v

/-- `formatTools`: `typeof tc.arguments === 'string' ? tc.arguments :
JSON.stringify(tc.arguments || \x7b\x7d)`. -/
def formatArgsText (tc : Json) : String :=
  match tc.getField "arguments" with
  | some (.str s) => s
  | some v => if v.truthy then v.render else (Json.obj []).render
  | none => (Json.obj []).render

/-- `formatTools(parsed)` on an array of parsed calls, from index `i` (the
`type:"function"` constant field is not modelled). -/
def formatToolsFrom (gen : Nat → String) (i : Nat) : List Json → List ToolCall
  | [] => []
  | tc :: rest => ⟨gen i, callNameOf tc, formatArgsText tc⟩ :: formatToolsFrom gen (i + 1) rest

/-- `formatTools(parsed)` on an array of parsed calls. -/
def formatTools (gen : Nat → String) (parsed : List Json) : List ToolCall :=
  formatToolsFrom gen 0 parsed

/-- `text.replace(pat, "")` as a global replacement: scan left to right and,
at each match of the (non-empty) pattern, drop it and resume scanning after
it.  The skip counter tracks how many matched characters remain to drop. -/
def removePatAux (pat : List Char) : Nat → List Char → List Char
  | _, [] => []
  | 0, c :: cs =>
    if pat.isPrefixOf (c :: cs) ∧ pat.length > 0 then removePatAux pat (pat.length - 1) cs
    else c :: removePatAux pat 0 cs
  | n + 1, _ :: cs => removePatAux pat n cs

/-- `text.replace(/```json/g, "").replace(/```/g, "").trim()` — the two
global replacements, then trimming. -/
def removePat (pat : List Char) (cs : List Char) : List Char := removePatAux pat 0 cs

def fenceJson : List Char := ('`' :: '`' :: '`' :: "json".data)
def fenceBare : List Char := ['`', '`', '`']

def jsTrim (cs : List Char) : List Char :=
  ((cs.dropWhile isWsChar).reverse.dropWhile isWsChar).reverse

/-- Step 1 of `extractTools` (line 28): strip markdown fence markers, trim. -/
def cleanTextOf (text : List Char) : List Char :=
  jsTrim (removePat fenceBare (removePat fenceJson text))

/-! Strategy A (lines 31-39): the greedy array match `/\[([\s\S]*)\]/` —
from the first opening bracket to the last closing bracket. -/

def firstIdxOf (c : Char) (cs : List Char) : Option Nat := cs.findIdx? (fun d => d = c)

def lastIdxOf (c : Char) (cs : List Char) : Option Nat :=
  match cs.reverse.findIdx? (fun d => d = c) with
  | some i => some (cs.length - 1 - i)
  | none => none

def strategyA (gen : Nat → String) (cs : List Char) : Option (List ToolCall) :=
  match firstIdxOf '[' cs, lastIdxOf ']' cs with
  | some i, some j =>
    if i < j then
      let cand := (cs.drop i).take (j - i + 1)
      match parseJsonChars cand with
      | .ok (.arr (x :: xs)) =>
        if optTruthy (x.getField "name") then some (formatTools gen (x :: xs)) else none
      | _ => none
    else none
  | _, _ => none

/-! Strategy B (lines 41-91): the brace-counting scan.  The source tracks a
start index into `cleanText` and captures `substring(start, i + 1)`; the model
equivalently accumulates the characters seen since the start brace in `cur`. -/

structure ScanState where
  depth : Int
  inString : Bool
  isEscaped : Bool
  /-- The candidate being collected (`start !== -1`), in order. -/
  cur : Option (List Char)
  /-- Completed balanced candidates, in order. -/
  cands : List (List Char)

def pushCur (cur : Option (List Char)) (c : Char) : Option (List Char) :=
  cur.map (fun acc => acc ++ [c])

def scanStep (st : ScanState) (c : Char) : ScanState :=
  if st.inString then
    let cur := pushCur st.cur c
    if c = '\\' then { st with cur := cur, isEscaped := !st.isEscaped }
    else if c = '"' ∧ st.isEscaped = false then { st with cur := cur, inString := false }
    else { st with cur := cur, isEscaped := false }
  else if c = '"' then { st with cur := pushCur st.cur c, inString := true }
  else if c = lbrace then
    if st.depth = 0 then { st with cur := some [c], depth := st.depth + 1 }
    else { st with cur := pushCur st.cur c, depth := st.depth + 1 }
  else if c = rbrace then
    let d := st.depth - 1
    if d = 0 ∧ st.cur.isSome then
      { st with depth := d, cands := st.cands ++ [(st.cur.getD []) ++ [c]], cur := none }
    else { st with depth := d, cur := pushCur st.cur c }
  else { st with cur := pushCur st.cur c }

def scanInit : ScanState := ⟨0, false, false, none, []⟩

/-- Per candidate: `JSON.parse` it, keep it when it has a truthy `name`
(lines 74-84; in the source the parse happens as each candidate closes, which
does not affect the scan state). -/
def parsedCandidates (cands : List (List Char)) : List Json :=
  cands.filterMap (fun cand =>
    match parseJsonChars cand with
    | .ok v => if optTruthy (v.getField "name") then some v else none
    | .error _ => none)

/-! Strategy C (lines 93-106): the quasi-XML fallback
`/<(?:tool_code|tool_call)>(\w+)\((\x7b[\s\S]*?\x7d)\)<\/(?:tool_code|tool_call)>/`.
Modelled at its first opening-tag occurrence (regex backtracking across
multiple occurrences is not modelled; no verified claim reaches this
strategy with a tag present). -/

def tagOpen1 : List Char := "<tool_code>".data
def tagOpen2 : List Char := "<tool_call>".data
def closeSeq1 : List Char := ")</tool_code>".data
def closeSeq2 : List Char := ")</tool_call>".data

def findTagStart : List Char → Option (List Char)
  | [] => none
  | c :: cs =>
    if tagOpen1.isPrefixOf (c :: cs) then some ((c :: cs).drop tagOpen1.length)
    else if tagOpen2.isPrefixOf (c :: cs) then some ((c :: cs).drop tagOpen2.length)
    else findTagStart cs

/-- The lazy argument match: the shortest brace-terminated prefix followed
immediately by `)</tool_code>` or `)</tool_call>`. -/
def findArgsEnd (acc : List Char) : List Char → Option (List Char)
  | [] => none
  | c :: cs =>
    if c = rbrace ∧ (closeSeq1.isPrefixOf cs ∨ closeSeq2.isPrefixOf cs) then
      some (acc ++ [c])
    else findArgsEnd (acc ++ [c]) cs

/-- JS `typeof v === 'object'`: objects, arrays and `null`. -/
def jsTypeofObject : Json → Bool
  | .obj _ => true
  | .arr _ => true
  | .null => true
  | _ => false

def strategyC (gen : Nat → String) (cs : List Char) : Option (List ToolCall) :=
  match findTagStart cs with
  | none => none
  | some rest =>
    let nameChars := rest.takeWhile isWordChar
    let rest2 := rest.dropWhile isWordChar
    if nameChars.isEmpty then none
    else
      match rest2 with
      | '(' :: rest3 =>
        (match rest3 with
        | c :: _ =>
          if c = lbrace then
            match findArgsEnd [] rest3 with
            | some argsChars =>
              (match parseJsonChars argsChars with
              | .ok parsed =>
                if jsTypeofObject parsed then
                  some (formatTools gen
                    [Json.obj [("name", .str (String.mk nameChars)), ("arguments", parsed)]])
                else none
              | .error _ => none)
            | none => none
          else none
        | [] => none)
      | _ => none

/-- `extractTools(text)` (lines 24-113): clean, then Strategy A, then the
brace-counting Strategy B, then the XML fallback; `none` models the `null`
returns. -/
def extractTools (gen : Nat → String) (text : List Char) : Option (List ToolCall) :=
  let cleanText := cleanTextOf text
  match strategyA gen cleanText with
  | some calls => some calls
  | none =>
    let parsed := parsedCandidates (cleanText.foldl scanStep scanInit).cands
    if parsed.length > 0 then some (formatTools gen parsed)
    else strategyC gen cleanText

/-! ### The three built-in tool definitions (buildSystemPrompt, part_001
lines 441-496) -/

def getToolSchemaDef : ToolDef :=
  ⟨"getToolSchema", some "Get the input schema for a specific tool.",
    some (.obj [
      ("type", .str "object"),
      ("properties", .obj [
        ("name", .obj [
          ("type", .str "string"),
          ("description", .str "The name of the tool to inspect.")])]),
      ("required", .arr [.str "name"])])⟩

def evalCodeDef : ToolDef :=
  ⟨"evalCode",
    some "Execute JavaScript code. Use this for math, date/time, text processing, or logic.",
    some (.obj [
      ("type", .str "object"),
      ("properties", .obj [
        ("code", .obj [
          ("type", .str "string"),
          ("description", .str "The JavaScript code to execute. The last expression must include return statement. e.g: return Math.sqrt(144)")])]),
      ("required", .arr [.str "code"])])⟩

def listToolsDef : ToolDef :=
  ⟨"listTools",
    some "List available tools. Returns a list of tool names and descriptions. Supports searching by query string (BM25-like ranking) or regex.",
    some (.obj [
      ("type", .str "object"),
      ("properties", .obj [
        ("query", .obj [
          ("type", .str "string"),
          ("description", .str "Optional search query to filter tools.")]),
        ("use_regex", .obj [
          ("type", .str "boolean"),
          ("description", .str "If true, treats the query as a regular expression.")])])])⟩

/-- `virtualTools` in registry order; `fullTools` is this list followed by
the tools of the connected providers. -/
def virtualToolDefs : List ToolDef := [getToolSchemaDef, evalCodeDef, listToolsDef]

/-! ## Concrete fixtures for the verified scenarios -/

/-- A fixed id source (the JS ids are opaque random correlation tokens). -/
def genIds : Nat → String := fun i => "call_" ++ toString i

/-- A regex oracle for scenarios that never reach the regex path. -/
def noRegex : String → Except String (String → Bool) := fun _ => .error "unused"

/-- An ajv oracle that accepts all arguments. -/
def ajvAccept : Json → Json → Option String := fun _ _ => none

/-- An environment with only the three built-ins and no connected server. -/
def envBuiltins : ExecEnv :=
  ⟨virtualToolDefs, [], fun _ _ => .error "no server", ajvAccept, true,
   fun _ => .fail "unused", fun _ => .error "unused"⟩

def c1GtsCall : ToolCall := ⟨"id1", "getToolSchema", "\x7b\"name\":\"listTools\"\x7d"⟩
def c1ListCall : ToolCall := ⟨"id2", "listTools", "\x7b\x7d"⟩

/-- C1: the claim states that a `getToolSchema` call naming an existing tool
appends exactly one Tool message (the stored schema) and never aborts the
remaining calls of the batch.  The code violates this: the `getToolSchema`
block of `executeTools` is not followed by `continue` (unlike the
`listTools` and `evalCode` blocks), so the call falls through to the
provider-dispatch tail, which appends a second, error-flagged
"Tool not found on any connected server." message and `break`s.  Here a
batch of `getToolSchema("listTools")` followed by `listTools()` produces
two messages for the first call and none at all for the second. -/
theorem c1_getToolSchema_double_message_and_abort :
    executeTools envBuiltins noRegex [c1GtsCall, c1ListCall] =
      [⟨"id1", "getToolSchema", stringifyParams listToolsDef.parameters, false⟩,
       ⟨"id1", "getToolSchema", "Error: Tool not found on any connected server.", true⟩] := by
  rfl

def c3BadListCall : ToolCall := ⟨"id3", "listTools", "\x7b"⟩

/-- C3 counterexample: a `listTools` call with unparseable raw arguments is
`Invalid`, not `Valid` — only `getToolSchema` is exempt in
`validateToolCall`. -/
theorem c3_counterexample_listTools_invalid :
    c3BadListCall.name = "listTools"
    ∧ (parseJson c3BadListCall.arguments).isOk = false
    ∧ (validateToolCall ajvAccept virtualToolDefs c3BadListCall).isValid = false := by
  refine ⟨rfl, rfl, rfl⟩

/-- C3 amended: only `getToolSchema` always validates as `Valid` regardless
of its raw argument text; a `listTools` call is validated like any other
registered tool, and in particular unparseable JSON arguments yield
`Invalid` with the parse error. -/
theorem c3_only_getToolSchema_exempt (ajv : Json → Json → Option String)
    (tools : List ToolDef) (call : ToolCall) :
    (call.name = "getToolSchema" → validateToolCall ajv tools call = .valid)
    ∧ (∀ td m, call.name ≠ "getToolSchema" →
        tools.find? (fun t => t.name == call.name) = some td →
        parseJson call.arguments = .error m →
        validateToolCall ajv tools call =
          .invalid ("Invalid JSON arguments: " ++ m) td.parameters) := by
  constructor
  · intro h
    unfold validateToolCall
    rw [if_pos h]
  · intro td m hn hf hm
    unfold validateToolCall
    rw [if_neg hn, hf, hm]

theorem c3_only_getToolSchema_exempt_witness :
    validateToolCall ajvAccept virtualToolDefs c3BadListCall =
      .invalid ("Invalid JSON arguments: " ++ "Unexpected end of JSON input")
        listToolsDef.parameters := by
  exact (c3_only_getToolSchema_exempt ajvAccept virtualToolDefs c3BadListCall).2
    listToolsDef "Unexpected end of JSON input" (by decide) (by rfl) (by rfl)

def c6ConstSchema : Json := .obj [("const", .num 0), ("type", .str "string")]

/-- C6 counterexample: the claim states that a schema carrying a `const` key
short-circuits to that literal value.  The short-circuit checks are JS
truthiness tests (`if (schema.const)`), so the falsy literal `0` is skipped
and the type-based synthesis returns `"example_string"` instead of `0`. -/
theorem c6_counterexample_falsy_const :
    generateExample c6ConstSchema = .str "example_string"
    ∧ generateExample c6ConstSchema ≠ .num 0 := by
  have h : generateExample c6ConstSchema = .str "example_string" := by
    rw [generateExample]
    rfl
  exact ⟨h, by rw [h]; exact fun hc => Json.noConfusion hc⟩

/-- C6 amended: the synthesizer behaves as claimed with two qualifications
forced by the source: (1) an `example`/`default`/`const`/`enum` key
short-circuits only when its value is truthy (for `enum`: a non-empty
array), checked in that order; (2) an `object` schema synthesizes exactly
the properties that are both listed under `properties` and named in
`required`.  Arrays synthesize one element from a truthy `items`, and the
primitive types map to `"example_string"`, `123`, `true`, `null`. -/
theorem c6_example_synthesis (schema : Json) (ht : schema.truthy = true) :
    (∀ v, schema.getField "example" = some v → v.truthy = true → generateExample schema = v)
    ∧ (optTruthy (schema.getField "example") = false →
        ∀ v, schema.getField "default" = some v → v.truthy = true → generateExample schema = v)
    ∧ (optTruthy (schema.getField "example") = false →
        optTruthy (schema.getField "default") = false →
        ∀ v, schema.getField "const" = some v → v.truthy = true → generateExample schema = v)
    ∧ (optTruthy (schema.getField "example") = false →
        optTruthy (schema.getField "default") = false →
        optTruthy (schema.getField "const") = false →
        ∀ x xs, schema.getField "enum" = some (.arr (x :: xs)) → generateExample schema = x)
    ∧ (pickShortcut schema = none → resolvedType schema = some (.str "object") →
        ∀ props, schema.getField "properties" = some (.obj props) →
          generateExample schema = .obj (props.attach.filterMap (fun pv =>
            if reqIncludes
                (match schema.getField "required" with
                  | some v => if v.truthy then v else Json.arr []
                  | none => Json.arr []) pv.1.1 then
              some (pv.1.1, generateExample pv.1.2)
            else none)))
    ∧ (pickShortcut schema = none → resolvedType schema = some (.str "array") →
        ∀ items, schema.getField "items" = some items → items.truthy = true →
          generateExample schema = .arr [generateExample items])
    ∧ (pickShortcut schema = none → resolvedType schema = some (.str "string") →
        generateExample schema = .str "example_string")
    ∧ (pickShortcut schema = none → resolvedType schema = some (.str "number") →
        generateExample schema = .num 123)
    ∧ (pickShortcut schema = none → resolvedType schema = some (.str "boolean") →
        generateExample schema = .bool true)
    ∧ (pickShortcut schema = none → resolvedType schema = some (.str "null") →
        generateExample schema = .null) := by
  have hs : (!schema.truthy) = false := by rw [ht]; rfl
  refine ⟨?_, ?_, ?_, ?_, ?_, ?_, ?_, ?_, ?_, ?_⟩
  · intro v hv htr
    rw [generateExample, if_neg (by simp [hs])]
    have : pickShortcut schema = some v := by
      unfold pickShortcut
      rw [if_pos (by rw [hv]; simpa [optTruthy] using htr)]
      exact hv
    rw [this]
  · intro hex v hv htr
    rw [generateExample, if_neg (by simp [hs])]
    have : pickShortcut schema = some v := by
      unfold pickShortcut
      rw [if_neg (by rw [hex]; exact fun h => by cases h),
        if_pos (by rw [hv]; simpa [optTruthy] using htr)]
      exact hv
    rw [this]
  · intro hex hde v hv htr
    rw [generateExample, if_neg (by simp [hs])]
    have : pickShortcut schema = some v := by
      unfold pickShortcut
      rw [if_neg (by rw [hex]; exact fun h => by cases h),
        if_neg (by rw [hde]; exact fun h => by cases h),
        if_pos (by rw [hv]; simpa [optTruthy] using htr)]
      exact hv
    rw [this]
  · intro hex hde hco x xs hv
    rw [generateExample, if_neg (by simp [hs])]
    have : pickShortcut schema = some x := by
      unfold pickShortcut
      rw [if_neg (by rw [hex]; exact fun h => by cases h),
        if_neg (by rw [hde]; exact fun h => by cases h),
        if_neg (by rw [hco]; exact fun h => by cases h),
        hv]
      rfl
    rw [this]
  · intro hpick hty props hprops
    rw [generateExample, if_neg (by simp [hs]), hpick, hty]
    show (match hp : schema.getField "properties" with
        | some (.obj props) => Json.obj (props.attach.filterMap
            (fun (pv : {x // x ∈ props}) =>
            if reqIncludes (match schema.getField "required" with
              | some v => if v.truthy then v else Json.arr []
              | none => Json.arr []) pv.1.1 then some (pv.1.1, generateExample pv.1.2) else none))
        | _ => Json.obj []) = _
    split
    · next props2 hp2 =>
      rw [hprops] at hp2
      cases hp2
      rfl
    · next hno => exact (hno props hprops).elim
  · intro hpick hty items hitems htr
    rw [generateExample, if_neg (by simp [hs]), hpick, hty]
    show (match hi : schema.getField "items" with
        | some items => if items.truthy then Json.arr [generateExample items] else Json.arr []
        | none => Json.arr []) = _
    split
    · next items2 hi2 =>
      rw [hitems] at hi2
      cases hi2
      rw [if_pos htr]
    · next hi2 =>
      rw [hitems] at hi2
      cases hi2
  · intro hpick hty
    rw [generateExample, if_neg (by simp [hs]), hpick, hty]
    rfl
  · intro hpick hty
    rw [generateExample, if_neg (by simp [hs]), hpick, hty]
    rfl
  · intro hpick hty
    rw [generateExample, if_neg (by simp [hs]), hpick, hty]
    rfl
  · intro hpick hty
    rw [generateExample, if_neg (by simp [hs]), hpick, hty]
    rfl

def c6ExampleSchema : Json := .obj [("example", .str "hi"), ("type", .str "number")]

theorem c6_example_synthesis_witness :
    generateExample c6ExampleSchema = .str "hi" := by
  exact (c6_example_synthesis c6ExampleSchema rfl).1 (.str "hi") rfl rfl

/-! ## C7: all-or-nothing suspension on the permission gate -/

/-- C7: whenever some executable call of a turn names a tool that is not
pre-granted, not globally always-allowed and not session-granted, the
pipeline suspends on the full deduplicated executable set together with the
deferred error call, and executes nothing (the `.suspended` outcome carries
calls, not messages).  At most one approval can be pending at a time: the
suspended state is the single `pendingToolCalls` record. -/
theorem c7_suspend_all_or_nothing (env : ExecEnv)
    (rx : String → Except String (String → Bool)) (sess : List String)
    (rs : List (ToolCall × VOutcome))
    (h : ∃ c ∈ dedupCalls (planCalls rs).1,
        alwaysAllowedNames.contains c.name = false ∧ sess.contains c.name = false) :
    handleValidatedCalls env rx false sess rs =
      .suspended ⟨dedupCalls (planCalls rs).1, (planCalls rs).2⟩ := by
  obtain ⟨c, hc, h1, h2⟩ := h
  have hmem : c ∈ needsApproval false sess (dedupCalls (planCalls rs).1) := by
    unfold needsApproval
    refine List.mem_filter.mpr ⟨hc, ?_⟩
    rw [h1, h2]
    rfl
  have hne : (needsApproval false sess (dedupCalls (planCalls rs).1)).isEmpty = false := by
    cases hemp : (needsApproval false sess (dedupCalls (planCalls rs).1)).isEmpty
    · rfl
    · rw [List.isEmpty_iff] at hemp
      rw [hemp] at hmem
      cases hmem
  unfold handleValidatedCalls
  rw [hne]
  rfl

def c7Call : ToolCall := ⟨"id7", "some_remote_tool", "\x7b\x7d"⟩

theorem c7_suspend_all_or_nothing_witness :
    handleValidatedCalls envBuiltins noRegex false [] [(c7Call, .valid)] =
      .suspended ⟨dedupCalls (planCalls [(c7Call, .valid)]).1,
        (planCalls [(c7Call, .valid)]).2⟩ := by
  exact c7_suspend_all_or_nothing envBuiltins noRegex [] [(c7Call, .valid)]
    ⟨c7Call, by decide, by decide, by decide⟩

/-! ## C8: the `Always` grant is a single global, durable flag -/

theorem permStep_preserves_allowAll (s : PermState) (h : s.allowAll = true) (e : PermEvent) :
    (permStep s e).allowAll = true := by
  cases e <;> simpa [permStep] using h

theorem permRun_preserves_allowAll (s : PermState) (h : s.allowAll = true)
    (events : List PermEvent) : (permRun s events).allowAll = true := by
  induction events generalizing s with
  | nil => exact h
  | cons e es ih => exact ih _ (permStep_preserves_allowAll s h e)

theorem needsApproval_allowAll (sess : List String) (calls : List ToolCall) :
    needsApproval true sess calls = [] := by
  unfold needsApproval
  refine List.filter_eq_nil_iff.mpr ?_
  intro a _
  by_cases hca : alwaysAllowedNames.contains a.name
  · simp [hca]
  · simp [hca]

/-- C8: resuming with the `Always` grant sets the single global durable
flag `mcp_allow_all` (scope: all tools, not per-name).  Afterwards — through
any further approvals, cancellations and process restarts (which clear only
the session set, not the durable flag) — the needs-approval subset of every
batch is empty, and handling any validated turn always executes rather than
suspending: no tool ever prompts again. -/
theorem c8_always_allow_global_durable (s : PermState) (events : List PermEvent)
    (calls : List ToolCall) (env : ExecEnv)
    (rx : String → Except String (String → Bool)) (sess2 : List String)
    (rs : List (ToolCall × VOutcome)) :
    (permRun (permStep s .approveAlways) events).allowAll = true
    ∧ needsApproval (permRun (permStep s .approveAlways) events).allowAll
        (permRun (permStep s .approveAlways) events).sessionAllowed calls = []
    ∧ handleValidatedCalls env rx true sess2 rs =
        .executed (runExecutionMsgs env rx (dedupCalls (planCalls rs).1) (planCalls rs).2) := by
  have hall : (permRun (permStep s .approveAlways) events).allowAll = true :=
    permRun_preserves_allowAll _ (by simp [permStep]) events
  refine ⟨hall, ?_, ?_⟩
  · rw [hall]
    exact needsApproval_allowAll _ _
  · unfold handleValidatedCalls
    rw [needsApproval_allowAll, List.isEmpty_nil]
    rfl

/-! ## C4: deduplication by (name, raw-argument text) -/

theorem dedupCallsAux_sublist (seen : List String) (l : List ToolCall) :
    (dedupCallsAux seen l).Sublist l := by
  induction l generalizing seen with
  | nil => simp [dedupCallsAux]
  | cons c rest ih =>
    rw [dedupCallsAux]
    split
    · exact (ih seen).cons c
    · exact (ih (dedupKey c :: seen)).cons₂ c

theorem dedupCallsAux_not_seen (seen : List String) (l : List ToolCall) :
    ∀ c ∈ dedupCallsAux seen l, seen.contains (dedupKey c) = false := by
  induction l generalizing seen with
  | nil => simp [dedupCallsAux]
  | cons c0 rest ih =>
    intro c hc
    rw [dedupCallsAux] at hc
    split at hc
    · exact ih seen c hc
    · next hns =>
      rcases List.mem_cons.mp hc with h1 | h2
      · subst h1
        simpa using hns
      · have := ih (dedupKey c0 :: seen) c h2
        rw [List.contains_cons] at this
        simp only [Bool.or_eq_false_iff] at this
        exact this.2

theorem dedupCallsAux_keys_nodup (seen : List String) (l : List ToolCall) :
    ((dedupCallsAux seen l).map dedupKey).Nodup := by
  induction l generalizing seen with
  | nil => simp [dedupCallsAux]
  | cons c0 rest ih =>
    rw [dedupCallsAux]
    split
    · exact ih seen
    · rw [List.map_cons, List.nodup_cons]
      refine ⟨?_, ih (dedupKey c0 :: seen)⟩
      intro hmem
      obtain ⟨c, hc, hkey⟩ := List.mem_map.mp hmem
      have := dedupCallsAux_not_seen (dedupKey c0 :: seen) rest c hc
      rw [List.contains_cons] at this
      simp only [Bool.or_eq_false_iff] at this
      rw [hkey] at this
      simpa using this.1

theorem dedupCallsAux_find_first (seen : List String) (l : List ToolCall) :
    ∀ c ∈ dedupCallsAux seen l,
      l.find? (fun d => dedupKey d == dedupKey c) = some c := by
  induction l generalizing seen with
  | nil => simp [dedupCallsAux]
  | cons c0 rest ih =>
    intro c hc
    rw [dedupCallsAux] at hc
    split at hc
    · next hseen =>
      have hnotin := dedupCallsAux_not_seen seen rest c hc
      have hne : (dedupKey c0 == dedupKey c) = false := by
        cases heq : dedupKey c0 == dedupKey c
        · rfl
        · exfalso
          rw [eq_of_beq heq] at hseen
          rw [hseen] at hnotin
          cases hnotin
      rw [List.find?_cons_of_neg _ (by simp [hne]), ih seen c hc]
    · next hns =>
      rcases List.mem_cons.mp hc with h1 | h2
      · subst h1
        rw [List.find?_cons_of_pos _ (by simp)]
      · have hnotin := dedupCallsAux_not_seen (dedupKey c0 :: seen) rest c h2
        rw [List.contains_cons] at hnotin
        simp only [Bool.or_eq_false_iff] at hnotin
        have hne : (dedupKey c0 == dedupKey c) = false := by
          cases heq : dedupKey c0 == dedupKey c
          · rfl
          · exfalso
            rw [eq_of_beq heq] at hnotin
            simpa using hnotin.1
        rw [List.find?_cons_of_neg _ (by simp [hne]), ih (dedupKey c0 :: seen) c h2]

theorem dedupCallsAux_covers (seen : List String) (l : List ToolCall) :
    ∀ c ∈ l, seen.contains (dedupKey c) = true
      ∨ dedupKey c ∈ (dedupCallsAux seen l).map dedupKey := by
  induction l generalizing seen with
  | nil => simp
  | cons c0 rest ih =>
    intro c hc
    rw [dedupCallsAux]
    rcases List.mem_cons.mp hc with h1 | h2
    · subst h1
      split
      · next hseen => exact .inl hseen
      · exact .inr (by simp)
    · split
      · next hseen => exact ih seen c h2
      · rcases ih (dedupKey c0 :: seen) c h2 with hl | hr
        · rw [List.contains_cons] at hl
          rcases Bool.or_eq_true_iff.mp hl with h3 | h4
          · exact .inr (by simp [eq_of_beq h3])
          · exact .inl h4
        · exact .inr (by simp [hr])

/-- C4: executable calls of one turn that agree on the pair (tool name,
raw-argument text) are collapsed to a single occurrence: the result is a
subsequence of the input (first-seen order preserved), its keys are
duplicate-free, every remaining call is the first occurrence of its key in
the input, every input call's key is still represented, and in particular a
pair of identical calls collapses to the first one alone (so a downstream
`executeTools` run sees it exactly once). -/
theorem c4_dedup_first_seen (calls : List ToolCall) :
    (dedupCalls calls).Sublist calls
    ∧ ((dedupCalls calls).map dedupKey).Nodup
    ∧ (∀ c ∈ dedupCalls calls,
        calls.find? (fun d => dedupKey d == dedupKey c) = some c)
    ∧ (∀ c ∈ calls, dedupKey c ∈ (dedupCalls calls).map dedupKey)
    ∧ (∀ c c2 : ToolCall, dedupKey c = dedupKey c2 → dedupCalls [c, c2] = [c]) := by
  refine ⟨dedupCallsAux_sublist [] calls, dedupCallsAux_keys_nodup [] calls,
    dedupCallsAux_find_first [] calls, ?_, ?_⟩
  · intro c hc
    rcases dedupCallsAux_covers [] calls c hc with h1 | h2
    · cases h1
    · exact h2
  · intro c c2 hkey
    unfold dedupCalls
    rw [dedupCallsAux, if_neg (by simp), dedupCallsAux, if_pos (by simp [hkey]),
      dedupCallsAux]

def c4CallX : ToolCall := ⟨"idx1", "x", "\x7b\"a\":1\x7d"⟩
def c4CallX2 : ToolCall := ⟨"idx2", "x", "\x7b\"a\":1\x7d"⟩

/-- Witness: two identical calls `x({"a":1})` in one batch collapse to the
first, and executing the deduplicated batch produces exactly one Tool
message for `x`. -/
theorem c4_dedup_first_seen_witness :
    dedupCalls [c4CallX, c4CallX2] = [c4CallX]
    ∧ (executeTools
        ⟨virtualToolDefs ++ [⟨"x", some "an x tool", none⟩], ["x"],
          fun _ _ => .ok "x result", ajvAccept, true,
          fun _ => .fail "unused", fun _ => .error "unused"⟩ noRegex
        (dedupCalls [c4CallX, c4CallX2])).length = 1 := by
  have h := (c4_dedup_first_seen [c4CallX, c4CallX2]).2.2.2.2 c4CallX c4CallX2 rfl
  exact ⟨h, by rw [h]; rfl⟩

/-! ## C2: the first-invalid boundary -/

theorem gtsMsg_id (env : ExecEnv) (c : ToolCall) : (gtsMsg env c).tool_call_id = c.id := by
  unfold gtsMsg
  dsimp only
  repeat' split
  all_goals rfl

theorem listToolsStep_id (env : ExecEnv) (rx : String → Except String (String → Bool))
    (c : ToolCall) : (listToolsStep env rx c).tool_call_id = c.id := by
  unfold listToolsStep
  repeat' split
  all_goals rfl

theorem evalCodeStep_ids (env : ExecEnv) (c : ToolCall) :
    ∀ m ∈ (evalCodeStep env c).1, m.tool_call_id = c.id := by
  intro m hm
  unfold evalCodeStep at hm
  repeat' split at hm
  all_goals simp_all

theorem mcpStep_ids (env : ExecEnv) (c : ToolCall) :
    ∀ m ∈ (mcpStep env c).1, m.tool_call_id = c.id := by
  intro m hm
  unfold mcpStep at hm
  cases hfind : List.find? (fun t => t.name == c.name) env.activeTools with
  | none =>
    rw [hfind] at hm
    simp_all
  | some td =>
    rw [hfind] at hm
    cases hsrv : env.serverToolNames.contains c.name with
    | false =>
      rw [hsrv] at hm
      simp_all
    | true =>
      rw [hsrv] at hm
      dsimp only at hm
      repeat' split at hm
      all_goals simp_all

/-- Every message pushed by one loop iteration of `executeTools` carries the
correlation id of the call being processed. -/
theorem execStep_ids (env : ExecEnv) (rx : String → Except String (String → Bool))
    (c : ToolCall) : ∀ m ∈ (execStep env rx c).1, m.tool_call_id = c.id := by
  intro m hm
  unfold execStep at hm
  dsimp only at hm
  split at hm
  · replace hm : m = listToolsStep env rx c := by simpa using hm
    rw [hm]
    exact listToolsStep_id env rx c
  · split at hm
    · exact evalCodeStep_ids env c m hm
    · replace hm : m ∈ (if c.name = "getToolSchema" then [gtsMsg env c] else [])
          ++ (mcpStep env c).1 := by simpa using hm
      rcases List.mem_append.mp hm with h1 | h2
      · split at h1
        · replace h1 : m = gtsMsg env c := by simpa using h1
          rw [h1]
          exact gtsMsg_id env c
        · cases h1
      · exact mcpStep_ids env c m h2

/-- Every Tool message produced for a batch carries the id of some call of
the batch. -/
theorem executeTools_ids (env : ExecEnv) (rx : String → Except String (String → Bool))
    (calls : List ToolCall) :
    ∀ m ∈ executeTools env rx calls, m.tool_call_id ∈ calls.map ToolCall.id := by
  induction calls with
  | nil => simp [executeTools]
  | cons c rest ih =>
    intro m hm
    rw [executeTools] at hm
    split at hm
    · rw [execStep_ids env rx c m hm]
      simp
    · rcases List.mem_append.mp hm with h1 | h2
      · rw [execStep_ids env rx c m h1]
        simp
      · simp [ih m h2]

theorem errorCallMsg_id (ec : ToolCall × VOutcome) :
    (errorCallMsg ec).tool_call_id = ec.1.id := by
  obtain ⟨c, o⟩ := ec
  cases o <;> rfl

theorem nodup_getElem?_ne {α : Type} {l : List α} (h : l.Nodup) {i j : Nat} (hij : i ≠ j)
    {a b : α} (ha : l[i]? = some a) (hb : l[j]? = some b) : a ≠ b := by
  obtain ⟨hi, hia⟩ := List.getElem?_eq_some.mp ha
  obtain ⟨hj, hjb⟩ := List.getElem?_eq_some.mp hb
  intro hab
  apply hij
  exact (@List.Nodup.getElem_inj_iff _ l h i hi j hj).mp (by rw [hia, hjb, hab])

/-- The id of any message of the executed part of a turn comes from the
executable prefix. -/
theorem runExec_exec_ids (env : ExecEnv) (rx : String → Except String (String → Bool))
    (toProcess0 : List ToolCall) :
    ∀ m ∈ (if (dedupCalls toProcess0).length > 0
        then executeTools env rx (dedupCalls toProcess0) else []),
      m.tool_call_id ∈ toProcess0.map ToolCall.id := by
  intro m hm
  split at hm
  · have h1 := executeTools_ids env rx (dedupCalls toProcess0) m hm
    exact ((dedupCallsAux_sublist [] toProcess0).map ToolCall.id).subset h1
  · cases hm

/-- C2: given the ordered validated calls of one turn (with pairwise
distinct correlation ids), if no outcome is invalid every call is selected
for execution; if some outcome is invalid, exactly the calls strictly before
the first invalid index are selected, the turn's messages contain exactly
one corrective message for the first invalid call, and no call at or after
a later index ever appears in any resulting Tool message. -/
theorem c2_first_invalid_sequencing (env : ExecEnv)
    (rx : String → Except String (String → Bool)) (rs : List (ToolCall × VOutcome))
    (hids : (rs.map (fun r => r.1.id)).Nodup) :
    (firstInvalid rs = none → planCalls rs = (rs.map Prod.fst, none))
    ∧ (∀ i r, firstInvalid rs = some i → rs[i]? = some r →
        (planCalls rs).1 = (rs.take i).map Prod.fst
        ∧ (planCalls rs).2 = some r
        ∧ (runExecutionMsgs env rx (dedupCalls ((rs.take i).map Prod.fst)) (some r)).filter
            (fun m => m.tool_call_id == r.1.id) = [errorCallMsg r]
        ∧ (∀ j r2, i < j → rs[j]? = some r2 →
            ∀ m ∈ runExecutionMsgs env rx (dedupCalls ((rs.take i).map Prod.fst)) (some r),
              m.tool_call_id ≠ r2.1.id)) := by
  constructor
  · intro h
    unfold planCalls
    rw [h]
  · intro i r hfi hri
    have hfirst : i < rs.length := by
      have := List.getElem?_eq_some.mp hri
      exact this.1
    have hplan : planCalls rs = ((rs.take i).map Prod.fst, rs[i]?) := by
      unfold planCalls
      rw [hfi]
    have hexid : ∀ m ∈ (if (dedupCalls ((rs.take i).map Prod.fst)).length > 0
        then executeTools env rx (dedupCalls ((rs.take i).map Prod.fst)) else []),
        ∃ k, k < i ∧ (rs.map (fun r => r.1.id))[k]? = some m.tool_call_id := by
      intro m hm
      have h1 := runExec_exec_ids env rx _ m hm
      rw [List.map_map] at h1
      obtain ⟨k, hkeq⟩ := List.mem_iff_getElem?.mp h1
      rw [List.getElem?_map, List.getElem?_take] at hkeq
      by_cases hki : k < i
      · rw [if_pos hki] at hkeq
        refine ⟨k, hki, ?_⟩
        rw [List.getElem?_map]
        cases hrk : rs[k]? with
        | none =>
          rw [hrk] at hkeq
          cases hkeq
        | some rk =>
          rw [hrk] at hkeq
          exact hkeq
      · rw [if_neg hki] at hkeq
        cases hkeq
    have hrid : (rs.map (fun r => r.1.id))[i]? = some r.1.id := by
      rw [List.getElem?_map, hri]
      rfl
    refine ⟨by rw [hplan], by rw [hplan, hri], ?_, ?_⟩
    · unfold runExecutionMsgs
      rw [List.filter_append]
      have hleft : ((if (dedupCalls ((rs.take i).map Prod.fst)).length > 0
          then executeTools env rx (dedupCalls ((rs.take i).map Prod.fst)) else []).filter
            (fun m => m.tool_call_id == r.1.id)) = [] := by
        refine List.filter_eq_nil_iff.mpr ?_
        intro m hm
        obtain ⟨k, hki, hkeq⟩ := hexid m hm
        have hne := nodup_getElem?_ne hids (by omega : k ≠ i) hkeq hrid
        simp only [beq_iff_eq]
        exact fun hc => hne (by rw [hc])
      rw [hleft]
      simp [errorCallMsg_id]
    · intro j r2 hij hrj m hm
      have hr2id : (rs.map (fun r => r.1.id))[j]? = some r2.1.id := by
        rw [List.getElem?_map, hrj]
        rfl
      unfold runExecutionMsgs at hm
      rcases List.mem_append.mp hm with h1 | h2
      · obtain ⟨k, hki, hkeq⟩ := hexid m h1
        exact nodup_getElem?_ne hids (by omega : k ≠ j) hkeq hr2id
      · have hmeq : m = errorCallMsg r := by simpa using h2
        rw [hmeq, errorCallMsg_id]
        exact nodup_getElem?_ne hids (by omega : i ≠ j) hrid hr2id

def c2CallA : ToolCall := ⟨"idA", "listTools", "\x7b\x7d"⟩
def c2CallB : ToolCall := ⟨"idB", "nonexistent_tool", "\x7b\x7d"⟩
def c2CallC : ToolCall := ⟨"idC", "listTools", "\x7b\x7d"⟩
def c2OutB : VOutcome := .invalid "Tool 'nonexistent_tool' not found." none
def c2rs : List (ToolCall × VOutcome) :=
  [(c2CallA, .valid), (c2CallB, c2OutB), (c2CallC, .valid)]

/-- Witness: a batch of three calls whose second is invalid — one call is
selected and executed, exactly one corrective message is produced for the
second, and the third appears in no Tool message. -/
theorem c2_first_invalid_sequencing_witness :
    (planCalls c2rs).1 = [c2CallA]
    ∧ (planCalls c2rs).2 = some (c2CallB, c2OutB)
    ∧ (runExecutionMsgs envBuiltins noRegex (dedupCalls [c2CallA]) (some (c2CallB, c2OutB))).filter
        (fun m => m.tool_call_id == "idB") = [errorCallMsg (c2CallB, c2OutB)]
    ∧ ∀ m ∈ runExecutionMsgs envBuiltins noRegex (dedupCalls [c2CallA]) (some (c2CallB, c2OutB)),
        m.tool_call_id ≠ "idC" := by
  have h := (c2_first_invalid_sequencing envBuiltins noRegex c2rs (by decide)).2 1
    (c2CallB, c2OutB) (by rfl) (by rfl)
  have htake : (c2rs.take 1).map Prod.fst = [c2CallA] := by rfl
  refine ⟨by rw [h.1]; rfl, h.2.1, ?_, ?_⟩
  · have := h.2.2.1
    rw [htake] at this
    exact this
  · intro m hm
    have := h.2.2.2 2 (c2CallC, .valid) (by omega) (by rfl) m (by rw [htake]; exact hm)
    exact this

/-! ## C9: a failed `evalCode` call abandons the remaining batch -/

/-- A batch whose prefix does not halt executes compositionally. -/
theorem executeTools_append (env : ExecEnv) (rx : String → Except String (String → Bool))
    (l1 l2 : List ToolCall) (h : execHalts env rx l1 = false) :
    executeTools env rx (l1 ++ l2) = executeTools env rx l1 ++ executeTools env rx l2 := by
  induction l1 with
  | nil => simp [executeTools]
  | cons c rest ih =>
    rw [execHalts] at h
    rw [Bool.or_eq_false_iff] at h
    rw [List.cons_append, executeTools, executeTools, if_neg (by rw [h.1]; exact fun hc => by cases hc),
      if_neg (by rw [h.1]; exact fun hc => by cases hc), ih h.2, List.append_assoc]

/-- Whether the sandboxed eval outcome is a failure (a worker-reported
error, a watchdog timeout, or a worker error event). -/
def evalFails : EvalRes → Bool
  | .ok _ => false
  | .fail _ => true
  | .rejected _ => true

/-- The failure reason carried by a failed outcome. -/
def evalFailReason : EvalRes → String
  | .ok _ => ""
  | .fail e => e
  | .rejected msg => msg

theorem startsWith_evalError (r : String) :
    jsStartsWith ("Eval Error: " ++ r) "Eval Error:" = true := by
  unfold jsStartsWith
  rw [List.isPrefixOf_iff_prefix]
  have h1 : "Eval Error:".data <+: "Eval Error: ".data := by decide
  have h2 : "Eval Error: ".data <+: ("Eval Error: ".data ++ r.data) := List.prefix_append _ _
  have h3 := h1.trans h2
  rwa [← String.data_append] at h3

/-- C9: in sandbox mode, a batch containing an `evalCode` call whose eval
fails (worker-reported error, timeout, or worker error event) appends an
error-flagged Tool message with content `"Eval Error: <reason>"` for that
call, and no call after it in the batch is ever attempted: the batch's
messages end with that error message. -/
theorem c9_eval_error_halts (env : ExecEnv) (rx : String → Except String (String → Bool))
    (pre rest : List ToolCall) (c : ToolCall) (args : Json)
    (hsafe : env.useSafeEval = true)
    (hname : c.name = "evalCode")
    (hargs : parseJson c.arguments = .ok args)
    (hfail : evalFails (env.evalSafe (codeOf args)) = true)
    (hpre : execHalts env rx pre = false) :
    executeTools env rx (pre ++ c :: rest) =
      executeTools env rx pre ++
        [⟨c.id, c.name, "Eval Error: " ++ evalFailReason (env.evalSafe (codeOf args)), true⟩] := by
  rw [executeTools_append env rx pre _ hpre]
  congr 1
  have hres : evalResult env (codeOf args) =
      .str ("Eval Error: " ++ evalFailReason (env.evalSafe (codeOf args))) := by
    unfold evalResult
    rw [if_pos (by rw [hsafe])]
    cases hev : env.evalSafe (codeOf args) with
    | ok v =>
      rw [hev] at hfail
      cases hfail
    | fail e => rfl
    | rejected msg => rfl
  have hstep : execStep env rx c =
      ([⟨c.id, c.name, "Eval Error: " ++ evalFailReason (env.evalSafe (codeOf args)), true⟩],
        true) := by
    unfold execStep
    rw [if_neg (by rw [hname]; decide), if_pos hname]
    unfold evalCodeStep
    rw [hargs]
    dsimp only
    rw [hres]
    rw [show jsIsEvalError (Json.str ("Eval Error: " ++
        evalFailReason (env.evalSafe (codeOf args)))) = true from startsWith_evalError _]
  rw [executeTools, hstep]
  rfl

def c9EvalCall : ToolCall := ⟨"idE", "evalCode", "\x7b\"code\":\"while(true)\x7b\x7d\"\x7d"⟩
def c9NextCall : ToolCall := ⟨"idN", "listTools", "\x7b\x7d"⟩

/-- The sandbox environment in which the eval worker times out. -/
def c9Env : ExecEnv :=
  ⟨virtualToolDefs, [], fun _ _ => .error "no server", ajvAccept, true,
   fun _ => .rejected "Execution timed out (Infinite loop detected?)", fun _ => .error "unused"⟩

theorem c9_eval_error_halts_witness :
    executeTools c9Env noRegex [c9EvalCall, c9NextCall] =
      [⟨"idE", "evalCode",
        "Eval Error: " ++ "Execution timed out (Infinite loop detected?)", true⟩] := by
  exact c9_eval_error_halts c9Env noRegex [] [c9NextCall] c9EvalCall
    (.obj [("code", .str "while(true)\x7b\x7d")]) rfl rfl (by rfl) rfl rfl

/-! ## C10: `listTools` queries without search terms -/

/-- A character that is not a JS word character is unchanged by
`toLowerCase` (lower-casing only affects uppercase letters, which are word
characters). -/
theorem toLower_of_not_word (c : Char) (h : isWordChar c = false) : Char.toLower c = c := by
  unfold Char.toLower
  simp only
  split
  · next hr =>
    exfalso
    obtain ⟨h1, h2⟩ := hr
    have hu : c.isUpper = true := by
      simp only [Char.isUpper, Bool.and_eq_true, decide_eq_true_eq]
      exact ⟨h1, h2⟩
    simp [isWordChar, Char.isAlphanum, Char.isAlpha, hu] at h
  · rfl

/-- Splitting an all-non-word string on `/\W+/` yields only empty pieces. -/
theorem splitNonWord_all_empty (cs : List Char) (h : ∀ c ∈ cs, isWordChar c = false) :
    ∀ s ∈ splitNW cs, s.length = 0 := by
  induction cs with
  | nil =>
    intro s hs
    have hs2 : s ∈ ([""] : List String) := hs
    rw [List.mem_singleton] at hs2
    rw [hs2]
    rfl
  | cons c rest ih =>
    have hc := h c (List.mem_cons_self c rest)
    intro s hs
    rw [splitNW.eq_def] at hs
    dsimp only at hs
    rw [hc, if_neg (show ¬(false = true) by decide)] at hs
    cases rest with
    | nil =>
      rcases List.mem_cons.mp hs with h1 | h2
      · rw [h1]; rfl
      · rw [List.mem_singleton] at h2
        rw [h2]
        rfl
    | cons c2 rest2 =>
      have hc2 := h c2 (List.mem_cons_of_mem c (List.mem_cons_self c2 rest2))
      dsimp only at hs
      rw [hc2, if_neg (show ¬(false = true) by decide)] at hs
      exact ih (fun x hx => h x (List.mem_cons_of_mem c hx)) s hs

/-- C10 amended: a `listTools` call whose query contains no word characters
(JS `\W`-only: no letters, digits, or underscore) and whose `use_regex` flag
is absent or falsy is not filtered at all: the result is every active tool
in registry order, identical to a call carrying no query.  (The original
claim said "no alphanumeric characters", but underscore is a word character
for `/\W+/`, so a pure-underscore query does filter — see the
counterexample.) -/
theorem c10_no_word_chars_full_listing (env : ExecEnv)
    (rx : String → Except String (String → Bool)) (args : Json) (q : String)
    (hq : args.getField "query" = some (.str q))
    (hw : ∀ c ∈ q.data, isWordChar c = false)
    (hr : optTruthy (args.getField "use_regex") = false) :
    listToolsResults env rx args = .ok env.activeTools
    ∧ listToolsResults env rx (Json.obj []) = .ok env.activeTools := by
  constructor
  · unfold listToolsResults
    dsimp only
    rw [hq]
    by_cases hq0 : q = ""
    · rw [if_neg (by simp [optTruthy, Json.truthy, hq0])]
    · rw [if_pos (by simp [optTruthy, Json.truthy, hq0]), if_neg (by simp [hr])]
      dsimp only
      have hterms : ((jsSplitNonWord (lowerStr q)).filter (fun t => t.length > 0)) = [] := by
        refine List.filter_eq_nil_iff.mpr ?_
        intro s hs
        have hlow : ∀ c ∈ (lowerStr q).data, isWordChar c = false := by
          intro c hcl
          unfold lowerStr at hcl
          rw [show (String.mk (q.data.map Char.toLower)).data = q.data.map Char.toLower
            from rfl] at hcl
          obtain ⟨c0, hc0, hc0eq⟩ := List.mem_map.mp hcl
          have h0 := hw c0 hc0
          rw [← hc0eq, toLower_of_not_word c0 h0]
          exact h0
        have := splitNonWord_all_empty (lowerStr q).data hlow s hs
        simp [jsSplitNonWord] at hs ⊢
        omega
      rw [hterms]
      rfl
  · rfl

def c10SqlTool : ToolDef := ⟨"run_sql_query", some "Runs a SQL query.", some (.obj [("type", .str "object")])⟩

def c10Env : ExecEnv :=
  ⟨virtualToolDefs ++ [c10SqlTool], ["run_sql_query"], fun _ _ => .ok "ok", ajvAccept, true,
   fun _ => .fail "unused", fun _ => .error "unused"⟩

def c10Args : Json := .obj [("query", .str "_")]

/-- C10 counterexample: the query `"_"` contains no alphanumeric characters
(it is pure punctuation), yet the `listTools` filter does apply: only the
underscore-named tool survives, while a call with no query lists all four
registered tools in registry order. -/
theorem c10_counterexample_underscore_query :
    (∀ c ∈ ("_" : String).data, (c.isAlphanum : Bool) = false)
    ∧ (listToolsResults c10Env noRegex c10Args).map (List.map ToolDef.name) =
        .ok ["run_sql_query"]
    ∧ (listToolsResults c10Env noRegex (Json.obj [])).map (List.map ToolDef.name) =
        .ok ["getToolSchema", "evalCode", "listTools", "run_sql_query"]
    ∧ (["run_sql_query"] : List String) ≠
        ["getToolSchema", "evalCode", "listTools", "run_sql_query"] := by
  refine ⟨by decide, by rfl, by rfl, by decide⟩

def c10NoWordArgs : Json := .obj [("query", .str "!!! ??")]

theorem c10_no_word_chars_full_listing_witness :
    listToolsResults c10Env noRegex c10NoWordArgs = .ok c10Env.activeTools := by
  exact (c10_no_word_chars_full_listing c10Env noRegex c10NoWordArgs "!!! ??"
    rfl (by decide) rfl).1

/-! ## C5: the call extractor on texts with embedded JSON objects

The lemmas below characterize the brace-counting scan (Strategy B) on a text
assembled from prose segments and canonically rendered JSON objects. -/

/-- The canonical text of a JSON object (its `JSON.stringify` form). -/
def renderObj (o : List (String × Json)) : List Char := Json.renderChars (.obj o)

/-- A prose segment the scanner treats as inert: no double quote and no
braces. -/
def proseOk (p : List Char) : Prop := ∀ c ∈ p, c ≠ '"' ∧ c ≠ lbrace ∧ c ≠ rbrace

instance (p : List Char) : Decidable (proseOk p) := by
  unfold proseOk
  infer_instance

/-- A text of `N ≥ 1` objects interleaved with `N + 1` prose segments. -/
def assemble : List (List Char) → List (List (String × Json)) → List Char
  | p :: ps, o :: os => p ++ renderObj o ++ assemble ps os
  | p :: _, [] => p
  | [], _ => []

def scanRun (st : ScanState) (cs : List Char) : ScanState := cs.foldl scanStep st

def curAppend (cur : Option (List Char)) (xs : List Char) : Option (List Char) :=
  cur.map (fun acc => acc ++ xs)

theorem curAppend_nil (cur : Option (List Char)) : curAppend cur [] = cur := by
  cases cur <;> simp [curAppend]

theorem curAppend_push (cur : Option (List Char)) (c : Char) (xs : List Char) :
    curAppend (pushCur cur c) xs = curAppend cur (c :: xs) := by
  cases cur <;> simp [curAppend, pushCur]

theorem curAppend_append (cur : Option (List Char)) (xs ys : List Char) :
    curAppend (curAppend cur xs) ys = curAppend cur (xs ++ ys) := by
  cases cur <;> simp [curAppend]

theorem scanRun_nil (st : ScanState) : scanRun st [] = st := rfl

theorem scanRun_cons (st : ScanState) (c : Char) (cs : List Char) :
    scanRun st (c :: cs) = scanRun (scanStep st c) cs := rfl

theorem scanRun_append (st : ScanState) (l1 l2 : List Char) :
    scanRun st (l1 ++ l2) = scanRun (scanRun st l1) l2 := by
  unfold scanRun
  exact List.foldl_append scanStep st l1 l2

/-- A character other than a quote or a brace, seen outside a string, only
extends the current candidate. -/
theorem scanStep_neutral (d : Int) (cur : Option (List Char)) (cands : List (List Char))
    (c : Char) (h : c ≠ '"' ∧ c ≠ lbrace ∧ c ≠ rbrace) :
    scanStep ⟨d, false, false, cur, cands⟩ c = ⟨d, false, false, pushCur cur c, cands⟩ := by
  unfold scanStep
  simp [h.1, h.2.1, h.2.2]

theorem scan_neutral (l : List Char) (h : ∀ c ∈ l, c ≠ '"' ∧ c ≠ lbrace ∧ c ≠ rbrace)
    (d : Int) (cur : Option (List Char)) (cands : List (List Char)) :
    scanRun ⟨d, false, false, cur, cands⟩ l = ⟨d, false, false, curAppend cur l, cands⟩ := by
  induction l generalizing cur with
  | nil => rw [scanRun_nil, curAppend_nil]
  | cons c rest ih =>
    rw [scanRun_cons, scanStep_neutral d cur cands c (h c (List.mem_cons_self c rest)),
      ih (fun x hx => h x (List.mem_cons_of_mem c hx)), curAppend_push]

/-- Inside a string literal, the escaped rendering of any character returns
to the non-escaped in-string state. -/
theorem scan_escapeChar (c : Char) (d : Int) (cur : Option (List Char))
    (cands : List (List Char)) :
    scanRun ⟨d, true, false, cur, cands⟩ (escapeChar c) =
      ⟨d, true, false, curAppend cur (escapeChar c), cands⟩ := by
  unfold escapeChar
  by_cases h1 : c = '"'
  · rw [if_pos h1]
    rw [scanRun_cons, scanRun_cons, scanRun_nil]
    unfold scanStep
    norm_num
    cases cur <;> simp [pushCur, curAppend]
  · rw [if_neg h1]
    by_cases h2 : c = '\\'
    · rw [if_pos h2]
      rw [scanRun_cons, scanRun_cons, scanRun_nil]
      unfold scanStep
      norm_num
      cases cur <;> simp [pushCur, curAppend]
    · rw [if_neg h2]
      by_cases h3 : c = '\n'
      · rw [if_pos h3]
        rw [scanRun_cons, scanRun_cons, scanRun_nil]
        unfold scanStep
        norm_num
        cases cur <;> simp [pushCur, curAppend]
      · rw [if_neg h3]
        by_cases h4 : c = '\t'
        · rw [if_pos h4]
          rw [scanRun_cons, scanRun_cons, scanRun_nil]
          unfold scanStep
          norm_num
          cases cur <;> simp [pushCur, curAppend]
        · rw [if_neg h4]
          by_cases h5 : c = '\r'
          · rw [if_pos h5]
            rw [scanRun_cons, scanRun_cons, scanRun_nil]
            unfold scanStep
            norm_num
            cases cur <;> simp [pushCur, curAppend]
          · rw [if_neg h5]
            rw [scanRun_cons, scanRun_nil]
            unfold scanStep
            simp only [if_pos (show (true : Bool) = true from rfl)]
            simp [h1, h2]
            cases cur <;> simp [pushCur, curAppend]

theorem scan_instring (l : List Char) (d : Int) (cur : Option (List Char))
    (cands : List (List Char)) :
    scanRun ⟨d, true, false, cur, cands⟩ (l.flatMap escapeChar) =
      ⟨d, true, false, curAppend cur (l.flatMap escapeChar), cands⟩ := by
  induction l generalizing cur with
  | nil => rw [List.flatMap_nil, scanRun_nil, curAppend_nil]
  | cons c rest ih =>
    rw [List.flatMap_cons, scanRun_append, scan_escapeChar, ih, curAppend_append]

/-- A full rendered string literal scanned from outside a string toggles
into and out of the in-string mode, only extending the candidate. -/
theorem scan_strlit (s : String) (d : Int) (cur : Option (List Char))
    (cands : List (List Char)) :
    scanRun ⟨d, false, false, cur, cands⟩ ('"' :: escapeStr s ++ ['"']) =
      ⟨d, false, false, curAppend cur ('"' :: escapeStr s ++ ['"']), cands⟩ := by
  rw [scanRun_append, scanRun_cons ⟨d, false, false, cur, cands⟩ '"' (escapeStr s)]
  rw [show scanStep ⟨d, false, false, cur, cands⟩ '"' =
    ⟨d, true, false, pushCur cur '"', cands⟩ from by unfold scanStep; norm_num]
  unfold escapeStr
  rw [scan_instring]
  rw [scanRun_cons, scanRun_nil]
  rw [show ∀ cur2, scanStep ⟨d, true, false, cur2, cands⟩ '"' =
    ⟨d, false, false, pushCur cur2 '"', cands⟩ from fun cur2 => by unfold scanStep; simp]
  cases cur <;> simp [pushCur, curAppend]

theorem digitChar_ok (m : Nat) : m.digitChar ≠ '"' ∧ m.digitChar ≠ lbrace ∧ m.digitChar ≠ rbrace := by
  rcases Nat.lt_or_ge m 16 with h | h
  · interval_cases m <;> decide
  · have hstar : m.digitChar = '*' := by
      unfold Nat.digitChar
      repeat rw [if_neg (by omega)]
    rw [hstar]
    decide

theorem toDigitsCore_ok (b fuel : Nat) : ∀ (n : Nat) (acc : List Char),
    (∀ c ∈ acc, c ≠ '"' ∧ c ≠ lbrace ∧ c ≠ rbrace) →
    ∀ c ∈ Nat.toDigitsCore b fuel n acc, c ≠ '"' ∧ c ≠ lbrace ∧ c ≠ rbrace := by
  induction fuel with
  | zero =>
    intro n acc hacc
    simpa [Nat.toDigitsCore] using hacc
  | succ fuel ih =>
    intro n acc hacc
    rw [Nat.toDigitsCore]
    have hcons : ∀ c ∈ (n % b).digitChar :: acc, c ≠ '"' ∧ c ≠ lbrace ∧ c ≠ rbrace := by
      intro c hc
      rcases List.mem_cons.mp hc with h1 | h2
      · rw [h1]
        exact digitChar_ok _
      · exact hacc c h2
    split
    · exact hcons
    · exact ih (n / b) _ hcons

theorem natRepr_ok (m : Nat) :
    ∀ c ∈ (Nat.repr m).data, c ≠ '"' ∧ c ≠ lbrace ∧ c ≠ rbrace := by
  unfold Nat.repr
  rw [show (Nat.toDigits 10 m).asString.data = Nat.toDigits 10 m from rfl]
  unfold Nat.toDigits
  exact toDigitsCore_ok 10 (m + 1) m [] (by simp)

theorem intToString_ok (n : Int) :
    ∀ c ∈ (toString n).data, c ≠ '"' ∧ c ≠ lbrace ∧ c ≠ rbrace := by
  show ∀ c ∈ (Int.repr n).data, _
  cases n with
  | ofNat m => exact natRepr_ok m
  | negSucc m =>
    show ∀ c ∈ ("-" ++ Nat.repr (m + 1)).data, _
    rw [String.data_append]
    intro c hc
    rcases List.mem_append.mp hc with h1 | h2
    · rw [show ("-" : String).data = ['-'] from rfl] at h1
      rw [List.mem_singleton] at h1
      rw [h1]
      decide
    · exact natRepr_ok (m + 1) c h2

theorem scanStep_lbrace_deep (d : Int) (hd : 1 ≤ d) (cur : Option (List Char))
    (cands : List (List Char)) :
    scanStep ⟨d, false, false, cur, cands⟩ lbrace =
      ⟨d + 1, false, false, pushCur cur lbrace, cands⟩ := by
  unfold scanStep
  have hne : ¬(d = 0) := by omega
  have h1 : ¬(lbrace = '"') := by decide
  simp [hne, h1]

theorem scanStep_rbrace_deep (d : Int) (hd : 1 ≤ d) (cur : Option (List Char))
    (cands : List (List Char)) :
    scanStep ⟨d + 1, false, false, cur, cands⟩ rbrace =
      ⟨d, false, false, pushCur cur rbrace, cands⟩ := by
  unfold scanStep
  have hne : ¬(d + 1 - 1 = 0) := by omega
  have h2 : ¬(rbrace = '"') := by decide
  have h3 : ¬(rbrace = lbrace) := by decide
  simp [hne, h2, h3]
  intro h0
  exact absurd h0 (by omega)

mutual
theorem scan_render_val (v : Json) : ∀ (d : Int), 1 ≤ d →
    ∀ (cur : Option (List Char)) (cands : List (List Char)),
    scanRun ⟨d, false, false, cur, cands⟩ v.renderChars =
      ⟨d, false, false, curAppend cur v.renderChars, cands⟩ := by
  intro d hd cur cands
  cases v with
  | null => exact scan_neutral "null".data (by decide) d cur cands
  | bool b =>
    cases b
    · exact scan_neutral "false".data (by decide) d cur cands
    · exact scan_neutral "true".data (by decide) d cur cands
  | num n => exact scan_neutral (toString n).data (intToString_ok n) d cur cands
  | str s => exact scan_strlit s d cur cands
  | arr es =>
    show scanRun _ (('[' :: renderCharsList es) ++ [']']) =
      ⟨d, false, false, curAppend cur (('[' :: renderCharsList es) ++ [']']), cands⟩
    rw [scanRun_append, scanRun_cons ⟨d, false, false, cur, cands⟩ '[' (renderCharsList es),
      scanStep_neutral d cur cands '[' (by decide),
      scan_render_list es d hd (pushCur cur '[') cands,
      scanRun_cons, scanRun_nil,
      scanStep_neutral d _ cands ']' (by decide)]
    cases cur <;> simp [pushCur, curAppend]
  | obj fs =>
    show scanRun _ ((lbrace :: renderCharsFields fs) ++ [rbrace]) =
      ⟨d, false, false, curAppend cur ((lbrace :: renderCharsFields fs) ++ [rbrace]), cands⟩
    rw [scanRun_append, scanRun_cons ⟨d, false, false, cur, cands⟩ lbrace (renderCharsFields fs),
      scanStep_lbrace_deep d hd cur cands,
      scan_render_fields fs (d + 1) (by omega) (pushCur cur lbrace) cands,
      scanRun_cons, scanRun_nil,
      scanStep_rbrace_deep d hd _ cands]
    cases cur <;> simp [pushCur, curAppend]

theorem scan_render_list (es : List Json) : ∀ (d : Int), 1 ≤ d →
    ∀ (cur : Option (List Char)) (cands : List (List Char)),
    scanRun ⟨d, false, false, cur, cands⟩ (renderCharsList es) =
      ⟨d, false, false, curAppend cur (renderCharsList es), cands⟩ := by
  intro d hd cur cands
  match es with
  | [] =>
    rw [show renderCharsList [] = [] from rfl, scanRun_nil, curAppend_nil]
  | [v] =>
    exact scan_render_val v d hd cur cands
  | v :: v2 :: vs =>
    show scanRun _ (v.renderChars ++ (',' :: renderCharsList (v2 :: vs))) =
      ⟨d, false, false, curAppend cur (v.renderChars ++ (',' :: renderCharsList (v2 :: vs))), cands⟩
    rw [scanRun_append, scan_render_val v d hd cur cands,
      scanRun_cons, scanStep_neutral d _ cands ',' (by decide),
      scan_render_list (v2 :: vs) d hd _ cands]
    cases cur <;> simp [pushCur, curAppend]

theorem scan_render_fields (fs : List (String × Json)) : ∀ (d : Int), 1 ≤ d →
    ∀ (cur : Option (List Char)) (cands : List (List Char)),
    scanRun ⟨d, false, false, cur, cands⟩ (renderCharsFields fs) =
      ⟨d, false, false, curAppend cur (renderCharsFields fs), cands⟩ := by
  intro d hd cur cands
  match fs with
  | [] =>
    rw [show renderCharsFields [] = [] from rfl, scanRun_nil, curAppend_nil]
  | [(k, v)] =>
    exact scan_field k v d hd cur cands
  | (k, v) :: f2 :: fs2 =>
    show scanRun _ (((('"' :: escapeStr k) ++ ['"', ':']) ++ v.renderChars) ++
        (',' :: renderCharsFields (f2 :: fs2))) =
      ⟨d, false, false,
        curAppend cur (((('"' :: escapeStr k) ++ ['"', ':']) ++ v.renderChars) ++
          (',' :: renderCharsFields (f2 :: fs2))), cands⟩
    rw [scanRun_append, scan_field k v d hd cur cands, scanRun_cons,
      scanStep_neutral d _ cands ',' (by decide),
      scan_render_fields (f2 :: fs2) d hd _ cands]
    cases cur <;> simp [pushCur, curAppend]

theorem scan_field (k : String) (v : Json) (d : Int) (hd : 1 ≤ d)
    (cur : Option (List Char)) (cands : List (List Char)) :
    scanRun ⟨d, false, false, cur, cands⟩ ((('"' :: escapeStr k) ++ ['"', ':']) ++ v.renderChars) =
      ⟨d, false, false,
        curAppend cur ((('"' :: escapeStr k) ++ ['"', ':']) ++ v.renderChars), cands⟩ := by
  have hlist : (('"' :: escapeStr k) ++ ['"', ':']) ++ v.renderChars =
      (('"' :: escapeStr k) ++ ['"']) ++ (':' :: v.renderChars) := by simp
  rw [hlist, scanRun_append, scan_strlit k d cur cands, scanRun_cons]
  rw [scanStep_neutral d (curAppend cur (('"' :: escapeStr k) ++ ['"'])) cands ':' (by decide)]
  rw [scan_render_val v d hd _ cands]
  cases cur <;> simp [pushCur, curAppend]
end

/-- A canonically rendered top-level object, scanned at depth 0 with no
candidate open, is captured whole as the next completed candidate. -/
theorem scan_obj_top (o : List (String × Json)) (cands : List (List Char)) :
    scanRun ⟨0, false, false, none, cands⟩ (renderObj o) =
      ⟨0, false, false, none, cands ++ [renderObj o]⟩ := by
  show scanRun ⟨0, false, false, none, cands⟩ ((lbrace :: renderCharsFields o) ++ [rbrace]) =
    ⟨0, false, false, none, cands ++ [lbrace :: renderCharsFields o ++ [rbrace]]⟩
  rw [scanRun_append, scanRun_cons ⟨0, false, false, none, cands⟩ lbrace (renderCharsFields o)]
  rw [show scanStep ⟨0, false, false, none, cands⟩ lbrace =
    ⟨0 + 1, false, false, some [lbrace], cands⟩ from rfl]
  rw [scan_render_fields o (0 + 1) (by norm_num) (some [lbrace]) cands]
  have hcur : curAppend (some [lbrace]) (renderCharsFields o) =
      some (lbrace :: renderCharsFields o) := by simp [curAppend]
  rw [hcur, scanRun_cons, scanRun_nil]
  rw [show ∀ xs, scanStep ⟨0 + 1, false, false, some xs, cands⟩ rbrace =
    ⟨0 + 1 - 1, false, false, none, cands ++ [xs ++ [rbrace]]⟩ from fun xs => rfl]
  norm_num

/-- An inert prose segment at depth 0 with no open candidate leaves the scan
state unchanged. -/
theorem scan_prose (p : List Char) (h : proseOk p) (cands : List (List Char)) :
    scanRun ⟨0, false, false, none, cands⟩ p = ⟨0, false, false, none, cands⟩ := by
  rw [scan_neutral p h 0 none cands]
  simp [curAppend]

/-- Scanning an assembled text collects exactly the rendered objects, in
order, as the completed candidates. -/
theorem scan_assemble (os : List (List (String × Json))) : ∀ (ps : List (List Char)),
    (∀ p ∈ ps, proseOk p) → os.length < ps.length →
    ∀ (cands : List (List Char)),
    scanRun ⟨0, false, false, none, cands⟩ (assemble ps os) =
      ⟨0, false, false, none, cands ++ os.map renderObj⟩ := by
  induction os with
  | nil =>
    intro ps hps hlen cands
    match ps with
    | p :: ps2 =>
      show scanRun ⟨0, false, false, none, cands⟩ p = _
      rw [scan_prose p (hps p (List.mem_cons_self p ps2)) cands]
      simp
  | cons o os2 ih =>
    intro ps hps hlen cands
    match ps with
    | p :: ps2 =>
      show scanRun ⟨0, false, false, none, cands⟩
        ((p ++ renderObj o) ++ assemble ps2 os2) = _
      rw [scanRun_append, scanRun_append,
        scan_prose p (hps p (List.mem_cons_self p ps2)) cands,
        scan_obj_top o cands,
        ih ps2 (fun q hq => hps q (List.mem_cons_of_mem p hq))
          (by simpa using Nat.lt_of_succ_lt_succ (by simpa using hlen))
          (cands ++ [renderObj o])]
      simp

/-- With no opening bracket in the cleaned text, the greedy array strategy
finds nothing. -/
theorem strategyA_none (gen : Nat → String) (cs : List Char) (h : '[' ∉ cs) :
    strategyA gen cs = none := by
  unfold strategyA
  have hf : firstIdxOf '[' cs = none := by
    unfold firstIdxOf
    rw [List.findIdx?_eq_none_iff]
    intro x hx
    simp only [decide_eq_false_iff_not]
    intro hxe
    exact h (hxe ▸ hx)
  rw [hf]

/-- Candidates that are canonical renders of objects with truthy names all
parse back and survive the name filter. -/
theorem parsedCandidates_renders (os : List (List (String × Json)))
    (hparse : ∀ o ∈ os, parseJsonChars (renderObj o) = Except.ok (.obj o))
    (hname : ∀ o ∈ os, optTruthy ((Json.obj o).getField "name") = true) :
    parsedCandidates (os.map renderObj) = os.map Json.obj := by
  induction os with
  | nil => rfl
  | cons o os2 ih =>
    unfold parsedCandidates
    simp only [List.map_cons, List.filterMap_cons, hparse o (List.mem_cons_self o os2),
      hname o (List.mem_cons_self o os2), if_true]
    exact congrArg (fun t => Json.obj o :: t)
      (ih (fun x hx => hparse x (List.mem_cons_of_mem o hx))
        (fun x hx => hname x (List.mem_cons_of_mem o hx)))

theorem formatToolsFrom_length (gen : Nat → String) : ∀ (l : List Json) (i : Nat),
    (formatToolsFrom gen i l).length = l.length := by
  intro l
  induction l with
  | nil => intro i; rfl
  | cons tc rest ih =>
    intro i
    show (formatToolsFrom gen i (tc :: rest)).length = _
    rw [formatToolsFrom]
    simp [ih (i + 1)]

theorem formatToolsFrom_names (gen : Nat → String) : ∀ (l : List Json) (i : Nat),
    (formatToolsFrom gen i l).map ToolCall.name = l.map callNameOf := by
  intro l
  induction l with
  | nil => intro i; rfl
  | cons tc rest ih =>
    intro i
    rw [formatToolsFrom, List.map_cons, List.map_cons, ih (i + 1)]

theorem formatToolsFrom_args (gen : Nat → String) : ∀ (l : List Json) (i : Nat),
    (formatToolsFrom gen i l).map ToolCall.arguments = l.map formatArgsText := by
  intro l
  induction l with
  | nil => intro i; rfl
  | cons tc rest ih =>
    intro i
    rw [formatToolsFrom, List.map_cons, List.map_cons, ih (i + 1)]

theorem formatToolsFrom_ids (gen : Nat → String) : ∀ (l : List Json) (i : Nat),
    (formatToolsFrom gen i l).map ToolCall.id =
      (List.range l.length).map (fun k => gen (i + k)) := by
  intro l
  induction l with
  | nil => intro i; rfl
  | cons tc rest ih =>
    intro i
    rw [formatToolsFrom, List.map_cons, ih (i + 1)]
    rw [show (tc :: rest).length = rest.length + 1 from rfl, List.range_succ_eq_map]
    rw [List.map_cons, List.map_map]
    refine congrArg₂ _ (by rw [Nat.add_zero]) ?_
    refine List.map_congr_left ?_
    intro k hk
    show gen (i + 1 + k) = gen (i + (k + 1))
    rw [Nat.add_assoc, Nat.add_comm 1 k]

/-- The canonical field list of a tool-call object: a `name` field and an
`arguments` object. -/
def callObj (n : String) (fs : List (String × Json)) : List (String × Json) :=
  [("name", Json.str n), ("arguments", Json.obj fs)]

theorem callNameOf_callObj (n : String) (fs : List (String × Json)) :
    callNameOf (Json.obj (callObj n fs)) = n := rfl

theorem formatArgsText_callObj (n : String) (fs : List (String × Json)) :
    formatArgsText (Json.obj (callObj n fs)) = (Json.obj fs).render := rfl

theorem callObj_name_truthy (n : String) (fs : List (String × Json)) (h : n ≠ "") :
    optTruthy ((Json.obj (callObj n fs)).getField "name") = true := by
  show (n != "") = true
  simpa using h

theorem mapNames_callObj (calls : List (String × List (String × Json))) :
    ((calls.map (fun c => callObj c.1 c.2)).map Json.obj).map callNameOf =
      calls.map Prod.fst := by
  induction calls with
  | nil => rfl
  | cons c cs ih =>
    simp only [List.map_cons]
    rw [ih]
    rfl

theorem mapArgs_callObj (calls : List (String × List (String × Json))) :
    ((calls.map (fun c => callObj c.1 c.2)).map Json.obj).map formatArgsText =
      calls.map (fun c => (Json.obj c.2).render) := by
  induction calls with
  | nil => rfl
  | cons c cs ih =>
    simp only [List.map_cons]
    rw [ih]
    rfl

/-- C5 (amended): for every raw model output assembled from inert prose
segments (no double quotes, no braces) around N ≥ 1 canonically rendered
tool-call objects (each a `name`/`arguments` object with a non-empty name
that round-trips through the parser), where the fence-stripping-and-trim
cleaning step leaves the text unchanged and the whole text — prose and
`arguments` alike — contains no opening bracket (an array anywhere in the
text diverts the greedy array strategy, see the counterexample), the
extractor recovers exactly N ToolCalls, in original order, each with the
correct name and the `JSON.stringify` of its arguments as argument text,
with correlation ids drawn from the id source in order. -/
theorem c5_extractor_recovers_objects
    (gen : Nat → String) (ps : List (List Char))
    (calls : List (String × List (String × Json)))
    (hps : ∀ p ∈ ps, proseOk p)
    (hlen : calls.length < ps.length)
    (hN : 1 ≤ calls.length)
    (hparse : ∀ c ∈ calls, parseJsonChars (renderObj (callObj c.1 c.2)) =
        Except.ok (.obj (callObj c.1 c.2)))
    (hname : ∀ c ∈ calls, c.1 ≠ "")
    (hclean : cleanTextOf (assemble ps (calls.map (fun c => callObj c.1 c.2))) =
        assemble ps (calls.map (fun c => callObj c.1 c.2)))
    (hbr : '[' ∉ assemble ps (calls.map (fun c => callObj c.1 c.2))) :
    ∃ out, extractTools gen (assemble ps (calls.map (fun c => callObj c.1 c.2))) = some out
      ∧ out.length = calls.length
      ∧ out.map ToolCall.name = calls.map Prod.fst
      ∧ out.map ToolCall.arguments = calls.map (fun c => (Json.obj c.2).render)
      ∧ out.map ToolCall.id = (List.range calls.length).map gen := by
  set os := calls.map (fun c => callObj c.1 c.2) with hos
  have hparse2 : ∀ o ∈ os, parseJsonChars (renderObj o) = Except.ok (.obj o) := by
    intro o ho
    rcases List.mem_map.mp ho with ⟨c, hc, rfl⟩
    exact hparse c hc
  have hname2 : ∀ o ∈ os, optTruthy ((Json.obj o).getField "name") = true := by
    intro o ho
    rcases List.mem_map.mp ho with ⟨c, hc, rfl⟩
    exact callObj_name_truthy c.1 c.2 (hname c hc)
  have hlen2 : os.length < ps.length := by
    rw [hos, List.length_map]
    exact hlen
  refine ⟨formatTools gen (os.map Json.obj), ?_, ?_, ?_, ?_, ?_⟩
  · unfold extractTools
    rw [hclean]
    show (match strategyA gen (assemble ps os) with
      | some cs0 => some cs0
      | none =>
        let parsed := parsedCandidates ((assemble ps os).foldl scanStep scanInit).cands
        if parsed.length > 0 then some (formatTools gen parsed)
        else strategyC gen (assemble ps os)) = some (formatTools gen (os.map Json.obj))
    rw [strategyA_none gen _ hbr]
    show (if (parsedCandidates ((assemble ps os).foldl scanStep scanInit).cands).length > 0
      then some (formatTools gen (parsedCandidates ((assemble ps os).foldl scanStep scanInit).cands))
      else strategyC gen (assemble ps os)) = some (formatTools gen (os.map Json.obj))
    have hscan : (assemble ps os).foldl scanStep scanInit =
        ⟨0, false, false, none, os.map renderObj⟩ := by
      have h := scan_assemble os ps hps hlen2 []
      simpa [scanRun, scanInit] using h
    rw [hscan]
    rw [show ScanState.cands ⟨0, false, false, none, os.map renderObj⟩ = os.map renderObj from rfl]
    rw [parsedCandidates_renders os hparse2 hname2]
    rw [if_pos (by rw [List.length_map, hos, List.length_map]; omega)]
  · rw [show formatTools gen (os.map Json.obj) = formatToolsFrom gen 0 (os.map Json.obj) from rfl,
      formatToolsFrom_length, List.length_map, hos, List.length_map]
  · rw [show formatTools gen (os.map Json.obj) = formatToolsFrom gen 0 (os.map Json.obj) from rfl,
      formatToolsFrom_names, hos]
    exact mapNames_callObj calls
  · rw [show formatTools gen (os.map Json.obj) = formatToolsFrom gen 0 (os.map Json.obj) from rfl,
      formatToolsFrom_args, hos]
    exact mapArgs_callObj calls
  · rw [show formatTools gen (os.map Json.obj) = formatToolsFrom gen 0 (os.map Json.obj) from rfl,
      formatToolsFrom_ids, List.length_map, hos, List.length_map]
    simp

def c5Obj : List (String × Json) := [("name", Json.str "x"), ("arguments", Json.obj [])]

def c5BadText : List Char := ("A \" B " : String).data ++ renderObj c5Obj

/-- A well-formed call named `x` whose `arguments` contain an array holding
an object with a `name` field. -/
def c5HijObj : List (String × Json) :=
  [("name", Json.str "x"),
   ("arguments", Json.obj [("a", Json.arr [Json.obj [("name", Json.str "y")]])])]

def c5HijackText : List Char :=
  ("Sure: " : String).data ++ renderObj c5HijObj ++ (" done." : String).data

/-- Counterexample to the literal C5, in two parts.  (1) A text that is a
well-formed named tool-call object preceded by prose is rejected outright
when the prose carries a stray double quote — the brace counter enters
string mode at the stray quote, the object's braces are swallowed, no
candidate completes, and the extractor returns nothing.  (2) Even with
brace- and quote-free prose, a single well-formed call named `x` whose
`arguments` contain the array `[..name y..]` is hijacked by the greedy
array strategy: the extractor returns one call named `y` with empty-object
argument text instead of the call named `x`. -/
theorem c5_counterexample_prose_quote :
    parseJsonChars (renderObj c5Obj) = Except.ok (Json.obj c5Obj)
    ∧ optTruthy ((Json.obj c5Obj).getField "name") = true
    ∧ (∃ pre, c5BadText = pre ++ renderObj c5Obj)
    ∧ extractTools genIds c5BadText = none
    ∧ proseOk ("Sure: " : String).data
    ∧ proseOk (" done." : String).data
    ∧ parseJsonChars (renderObj c5HijObj) = Except.ok (Json.obj c5HijObj)
    ∧ optTruthy ((Json.obj c5HijObj).getField "name") = true
    ∧ c5HijackText = ("Sure: " : String).data ++ renderObj c5HijObj ++ (" done." : String).data
    ∧ extractTools genIds c5HijackText = some [⟨genIds 0, "y", (Json.obj []).render⟩]
    ∧ ("y" : String) ≠ "x" := by
  exact ⟨rfl, rfl, ⟨("A \" B " : String).data, rfl⟩, rfl,
    by decide, by decide, rfl, rfl, rfl, rfl, by decide⟩

def c5WitCalls : List (String × List (String × Json)) :=
  [("alpha", []), ("beta", [("x", Json.num 3)])]

def c5WitPs : List (List Char) :=
  [("Sure: " : String).data, (" and " : String).data, (" done." : String).data]

theorem c5_extractor_recovers_objects_witness :
    ∃ out, extractTools genIds
        (assemble c5WitPs (c5WitCalls.map (fun c => callObj c.1 c.2))) = some out
      ∧ out.length = c5WitCalls.length
      ∧ out.map ToolCall.name = c5WitCalls.map Prod.fst
      ∧ out.map ToolCall.arguments = c5WitCalls.map (fun c => (Json.obj c.2).render)
      ∧ out.map ToolCall.id = (List.range c5WitCalls.length).map genIds := by
  refine c5_extractor_recovers_objects genIds c5WitPs c5WitCalls ?_ ?_ ?_ ?_ ?_ ?_ ?_
  · decide
  · decide
  · decide
  · intro c hc
    rcases List.mem_cons.mp hc with h | h
    · rw [h]; rfl
    · rcases List.mem_cons.mp h with h2 | h2
      · rw [h2]; rfl
      · exact absurd h2 (List.not_mem_nil c)
  · decide
  · rfl
  · decide

end Feely
